import Mathlib

/-!
Verification development for the CLIAI redaction engine and network
egress gate (`src/cliai/redactor.py`, `src/cliai/network.py`).

Text is modelled as `List Char` (named `Str` below); Python dictionaries
are modelled as association lists in insertion order, which matches
Python's ordered-dict semantics.  `str.replace` is modelled by
`replaceAll` (leftmost, non-overlapping, all occurrences).
-/

namespace CliAI

/-- Character-list model of Python `str`. -/
abbrev Str := List Char

/-- Coerce a Lean string literal to the `Str` model. -/
def S (s : String) : Str := s.toList

/-- Python `pat in s` (substring containment), as a proposition. -/
def OccursIn (pat s : Str) : Prop := ∃ a b, s = a ++ pat ++ b

instance (pat s : Str) : Decidable (OccursIn pat s) :=
  decidable_of_iff (pat <:+: s) (by
    constructor
    · rintro ⟨a, b, rfl⟩; exact ⟨a, b, rfl⟩
    · rintro ⟨a, b, rfl⟩; exact ⟨a, b, rfl⟩)

/-- Fuel-driven core of `replaceAllAux` (structural recursion on the
fuel keeps the definition kernel-reducible; the fuel never runs out
when it starts at the length of the string). -/
def replaceAllAuxF (pat rep : Str) : Nat → Str → Str
  | _, [] => []
  | 0, s => s
  | fuel + 1, c :: rest =>
    if pat ≠ [] ∧ pat.isPrefixOf (c :: rest) then
      rep ++ replaceAllAuxF pat rep fuel (rest.drop (pat.length - 1))
    else
      c :: replaceAllAuxF pat rep fuel rest

/-- Python `s.replace(pat, rep)` for non-empty `pat`: scan left to right,
replacing each (non-overlapping) occurrence. -/
def replaceAllAux (pat rep : Str) (s : Str) : Str :=
  replaceAllAuxF pat rep s.length s

theorem replaceAllAuxF_irrel (pat rep : Str) :
    ∀ f1 f2 s, s.length ≤ f1 → s.length ≤ f2 →
      replaceAllAuxF pat rep f1 s = replaceAllAuxF pat rep f2 s := by
  intro f1
  induction f1 with
  | zero =>
    intro f2 s h1 _
    have : s = [] := List.length_eq_zero.mp (Nat.le_zero.mp h1)
    subst this
    cases f2 <;> rfl
  | succ f ih =>
    intro f2 s h1 h2
    cases s with
    | nil => cases f2 <;> rfl
    | cons c rest =>
      cases f2 with
      | zero => exact absurd h2 (by simp)
      | succ f' =>
        show (if pat ≠ [] ∧ pat.isPrefixOf (c :: rest) then _ else _)
            = (if pat ≠ [] ∧ pat.isPrefixOf (c :: rest) then _ else _)
        split
        · next hp =>
          have hlen : (rest.drop (pat.length - 1)).length ≤ f := by
            simp only [List.length_drop]
            simp only [List.length_cons] at h1
            omega
          have hlen' : (rest.drop (pat.length - 1)).length ≤ f' := by
            simp only [List.length_drop]
            simp only [List.length_cons] at h2
            omega
          rw [ih f' _ hlen hlen']
        · have hlen : rest.length ≤ f := by
            simp only [List.length_cons] at h1
            omega
          have hlen' : rest.length ≤ f' := by
            simp only [List.length_cons] at h2
            omega
          rw [ih f' rest hlen hlen']

/-- The recursion equation of `replaceAllAux`, independent of fuel. -/
theorem replaceAllAux_eq (pat rep : Str) (s : Str) :
    replaceAllAux pat rep s = match s with
      | [] => []
      | c :: rest =>
        if pat ≠ [] ∧ pat.isPrefixOf (c :: rest) then
          rep ++ replaceAllAux pat rep (rest.drop (pat.length - 1))
        else
          c :: replaceAllAux pat rep rest := by
  cases s with
  | nil => rfl
  | cons c rest =>
    show (if pat ≠ [] ∧ pat.isPrefixOf (c :: rest) then
        rep ++ replaceAllAuxF pat rep rest.length (rest.drop (pat.length - 1))
      else c :: replaceAllAuxF pat rep rest.length rest)
      = (if pat ≠ [] ∧ pat.isPrefixOf (c :: rest) then
        rep ++ replaceAllAux pat rep (rest.drop (pat.length - 1))
      else c :: replaceAllAux pat rep rest)
    split
    · rw [replaceAllAuxF_irrel pat rep rest.length (rest.drop (pat.length - 1)).length
        (rest.drop (pat.length - 1)) (by simp) (le_refl _)]
      rfl
    · rfl

/-- Python `s.replace(pat, rep)`.  The empty-pattern case inserts `rep`
around every character, as Python does. -/
def replaceAll (pat rep s : Str) : Str :=
  if pat = [] then rep ++ s.foldr (fun c acc => c :: (rep ++ acc)) []
  else replaceAllAux pat rep s

/-- Lookup in a Python dict modelled as an association list. -/
def dictGet {α : Type} (d : List (Str × α)) (k : Str) : Option α :=
  (d.find? (fun e => e.1 == k)).map (·.2)

/-- Python `d[k] = v`: update in place if the key exists, else append
(Python dicts preserve insertion order). -/
def dictInsert {α : Type} (d : List (Str × α)) (k : Str) (v : α) : List (Str × α) :=
  if (d.find? (fun e => e.1 == k)).isSome then
    d.map (fun e => if e.1 == k then (k, v) else e)
  else d ++ [(k, v)]

/-- Keys of an association list. -/
def dictKeys {α : Type} (d : List (Str × α)) : List Str := d.map (·.1)

/-- Fuel-driven core of `natDigs`. -/
def natDigsF : Nat → Nat → Str
  | 0, n => [Char.ofNat (48 + n)]
  | fuel + 1, n =>
    if n < 10 then [Char.ofNat (48 + n)]
    else natDigsF fuel (n / 10) ++ [Char.ofNat (48 + n % 10)]

/-- Decimal digits of a natural number, as Python `str(n)` renders it. -/
def natDigs (n : Nat) : Str := natDigsF n n

theorem natDigsF_irrel : ∀ f1 f2 n, n ≤ f1 + 9 → n ≤ f2 + 9 →
    natDigsF f1 n = natDigsF f2 n := by
  intro f1
  induction f1 with
  | zero =>
    intro f2 n h1 _
    cases f2 with
    | zero => rfl
    | succ f' =>
      show [Char.ofNat (48 + n)] = if n < 10 then [Char.ofNat (48 + n)] else _
      rw [if_pos (by omega)]
  | succ f ih =>
    intro f2 n h1 h2
    by_cases hn : n < 10
    · cases f2 with
      | zero =>
        show (if n < 10 then _ else _) = [Char.ofNat (48 + n)]
        rw [if_pos hn]
      | succ f' =>
        show (if n < 10 then [Char.ofNat (48 + n)] else _)
          = if n < 10 then [Char.ofNat (48 + n)] else _
        rw [if_pos hn, if_pos hn]
    · cases f2 with
      | zero => omega
      | succ f' =>
        show (if n < 10 then [Char.ofNat (48 + n)] else _)
          = if n < 10 then [Char.ofNat (48 + n)] else _
        rw [if_neg hn, if_neg hn, ih f' (n / 10) (by omega) (by omega)]

/-- The recursion equation of `natDigs`. -/
theorem natDigs_eq (n : Nat) :
    natDigs n = if n < 10 then [Char.ofNat (48 + n)]
      else natDigs (n / 10) ++ [Char.ofNat (48 + n % 10)] := by
  show natDigsF n n = _
  by_cases hn : n < 10
  · rw [if_pos hn]
    cases n with
    | zero => rfl
    | succ m =>
      show (if m + 1 < 10 then [Char.ofNat (48 + (m + 1))] else _)
        = [Char.ofNat (48 + (m + 1))]
      rw [if_pos hn]
  · rw [if_neg hn]
    cases n with
    | zero => omega
    | succ m =>
      show (if m + 1 < 10 then _ else natDigsF m ((m + 1) / 10) ++ _) = _
      rw [if_neg hn, natDigsF_irrel m ((m + 1) / 10) ((m + 1) / 10) (by omega) (by omega)]
      rfl

/-- Stable insertion used by `sortByKeyDesc`. -/
def insDesc {α : Type} (key : α → Nat) (x : α) : List α → List α
  | [] => [x]
  | y :: ys => if key y ≤ key x then x :: y :: ys else y :: insDesc key x ys

/-- Stable sort, descending by `key`: the unique stable descending order,
matching Python's `sorted(..., key=key, reverse=True)`. -/
def sortByKeyDesc {α : Type} (key : α → Nat) (l : List α) : List α :=
  l.foldr (insDesc key) []

/-- ASCII lower-casing of one character (Python `str.lower`, ASCII range). -/
def lowerC (c : Char) : Char :=
  if 65 ≤ c.toNat ∧ c.toNat ≤ 90 then Char.ofNat (c.toNat + 32) else c

/-- ASCII lower-casing of a string. -/
def lowerS (s : Str) : Str := s.map lowerC

/-- ASCII upper-casing of one character (Python `str.upper`, ASCII range). -/
def upperC (c : Char) : Char :=
  if 97 ≤ c.toNat ∧ c.toNat ≤ 122 then Char.ofNat (c.toNat - 32) else c

/-- ASCII upper-casing of a string. -/
def upperS (s : Str) : Str := s.map upperC

/-- A single redaction record (`Redaction` dataclass in `redactor.py`). -/
structure Redaction where
  original : Str
  placeholder : Str
  category : Str
  auto : Bool := true
deriving DecidableEq, Repr

/-- The `_CATEGORY_TAGS` table of `redactor.py`, in full. -/
def categoryTags : List (Str × Str) := [
  (S "ipv4", S "IP"), (S "ipv6", S "IP"), (S "cidr", S "CIDR"),
  (S "uuid", S "UUID"), (S "fqdn", S "HOST"), (S "url", S "URL"),
  (S "email", S "EMAIL"), (S "aws_arn", S "ARN"), (S "aws_resource", S "AWS"),
  (S "api_key", S "KEY"), (S "mac_address", S "MAC"),
  (S "filepath_user", S "PATH"), (S "manual", S "REDACTED"),
  (S "user_term", S "TERM"), (S "connection_string", S "CONN"),
  (S "private_key", S "PRIVKEY"), (S "jwt", S "JWT"),
  (S "bearer_token", S "BEARER"), (S "ssh_fingerprint", S "SSHFP"),
  (S "cert_fingerprint", S "CERTFP"), (S "git_remote", S "GITREMOTE"),
  (S "user_at_host", S "LOGIN"), (S "env_secret", S "ENV"),
  (S "docker_image", S "DOCKER"), (S "k8s_pod", S "K8SPOD"),
  (S "hex_string", S "HEX"), (S "ssh_pubkey", S "SSHKEY"),
  (S "github_token", S "GHTOKEN"), (S "gitlab_token", S "GLTOKEN"),
  (S "slack_token", S "SLACK"), (S "stripe_key", S "STRIPE"),
  (S "sendgrid_key", S "SENDGRID"), (S "twilio_key", S "TWILIO"),
  (S "openai_key", S "OPENAI"), (S "pypi_token", S "PYPI"),
  (S "npm_token", S "NPM"), (S "telegram_token", S "TELEGRAM"),
  (S "mailchimp_key", S "MAILCHIMP"), (S "square_key", S "SQUARE"),
  (S "discord_token", S "DISCORD"), (S "high_entropy", S "SECRET"),
  (S "ner_person", S "PERSON"), (S "ner_location", S "LOCATION"),
  (S "ner_organization", S "ORG"), (S "ner_phone_number", S "PHONE"),
  (S "ner_credit_card", S "CREDITCARD"), (S "ner_iban_code", S "IBAN"),
  (S "ner_us_ssn", S "SSN"), (S "ner_medical_license", S "MEDLIC")]

/-- Session state of the redaction engine (`Redactor.__init__`): the
user-term table from config, the forward and reverse mapping tables,
the per-tag counters and the NER-enabled flag. -/
structure Redactor where
  userTerms : List (Str × Str) := []
  mapping : List (Str × Str) := []
  reverse : List (Str × Str) := []
  counters : List (Str × Nat) := []
  nerEnabled : Bool := true
deriving DecidableEq, Repr

/-- A fresh `Redactor` as built by `__init__`. -/
def Redactor.init (userTerms : List (Str × Str)) (nerEnabled : Bool) : Redactor :=
  { userTerms := userTerms, nerEnabled := nerEnabled }

/-- The placeholder string `(f"[TAG_n]")` minted by
`_get_or_create_placeholder`. -/
def mkPlaceholder (tag : Str) (n : Nat) : Str :=
  '[' :: (tag ++ '_' :: natDigs n ++ [']'])

/-- `Redactor._get_or_create_placeholder`: reuse the stored placeholder,
or mint `[TAG_n]` with the next counter value and record it in both
tables. -/
def getOrCreatePlaceholder (r : Redactor) (value category : Str) :
    Str × Redactor :=
  match dictGet r.mapping value with
  | some p => (p, r)
  | none =>
    let tag := (dictGet categoryTags category).getD (upperS category)
    let count := (dictGet r.counters tag).getD 0 + 1
    let p := mkPlaceholder tag count
    (p, { r with
          mapping := dictInsert r.mapping value p
          reverse := dictInsert r.reverse p value
          counters := dictInsert r.counters tag count })

/-- Delimiters of the entropy-scanner tokenizer: whitespace and the
characters of the regex class in `_detect_high_entropy_tokens`
(double quote, quote, colon, semicolon, comma, both braces, both
brackets, both parentheses), written by code point. -/
def isTokDelim (c : Char) : Bool :=
  let n := c.toNat
  n == 32 || n == 9 || n == 10 || n == 13 || n == 11 || n == 12 ||
  n == 34 || n == 39 || n == 58 || n == 59 || n == 44 ||
  n == 123 || n == 125 || n == 91 || n == 93 || n == 40 || n == 41

/-- Maximal runs of non-delimiter characters (the `re.findall` of
`_detect_high_entropy_tokens`); `cur` is the reversed current run. -/
def tokenizeAux (cur : Str) : Str → List Str
  | [] => if cur = [] then [] else [cur.reverse]
  | c :: rest =>
    if isTokDelim c then
      if cur = [] then tokenizeAux [] rest
      else cur.reverse :: tokenizeAux [] rest
    else tokenizeAux (c :: cur) rest

/-- Tokenize text for the entropy scanner. -/
def tokenize (s : Str) : List Str := tokenizeAux [] s

/-- The `HEX_CHARS` alphabet of the entropy scanner. -/
def hexChars : Str := S "0123456789abcdefABCDEF"

/-- The `BASE64_CHARS` alphabet of the entropy scanner. -/
def base64Chars : Str :=
  S "ABCDEFGHIJKLMNOPQRSTUVWXYZabcdefghijklmnopqrstuvwxyz0123456789+/=-_"

/-- Occurrence counts of the charset-filtered data, one per distinct
character (the `Counter` built by `_shannon_entropy`). -/
def entropyCounts (data charset : Str) : List Nat :=
  let f := data.filter (fun c => charset.contains c)
  f.dedup.map (fun c => f.count c)

/-- Exact test `shannon_entropy(data, charset) ≥ p / q`.  With counts
`c₁..cₘ` summing to `L`, the Shannon entropy is
`log₂ L - (1/L) ∑ cᵢ log₂ cᵢ`, so `H ≥ p/q` is equivalent to the
integer inequality `2^(p·L) · ∏ cᵢ^(q·cᵢ) ≤ L^(q·L)`; this decidable
form is proved equivalent to the real-valued entropy comparison in
`entropyAtLeast_iff` below.  The `L < 2` guard mirrors the early
`return 0.0` of `_shannon_entropy` (0.0 is below both thresholds). -/
def entropyAtLeast (data charset : Str) (p q : Nat) : Bool :=
  let f := data.filter (fun c => charset.contains c)
  let L := f.length
  if L < 2 then false
  else decide
    (2 ^ (p * L) * ((entropyCounts data charset).map (fun c => c ^ (q * c))).prod
      ≤ L ^ (q * L))

/-- Python `token.isalpha()` (ASCII range). -/
def isAlphaTok (t : Str) : Bool := !t.isEmpty && t.all Char.isAlpha

/-- The URL/path prefix skip of `_detect_high_entropy_tokens`. -/
def hasUrlOrPathPrefix (t : Str) : Bool :=
  (S "http://").isPrefixOf t || (S "https://").isPrefixOf t ||
  (S "/").isPrefixOf t || (S "./").isPrefixOf t || (S "../").isPrefixOf t

/-- The token loop of `_detect_high_entropy_tokens`: skip short,
already-mapped/flagged, purely alphabetic and URL/path-prefixed tokens,
then flag when the hex-restricted entropy reaches 4.5 (= 9/2) or the
base64-restricted entropy reaches 4.0 bits/char. -/
def detectHighEntropyTokens (r : Redactor) (alreadyRedacted : List Str) :
    List Str → List Redaction × Redactor
  | [] => ([], r)
  | tok :: toks =>
    if tok.length < 16 then detectHighEntropyTokens r alreadyRedacted toks
    else if (dictGet r.mapping tok).isSome || alreadyRedacted.contains tok then
      detectHighEntropyTokens r alreadyRedacted toks
    else if isAlphaTok tok then detectHighEntropyTokens r alreadyRedacted toks
    else if hasUrlOrPathPrefix tok then
      detectHighEntropyTokens r alreadyRedacted toks
    else if entropyAtLeast tok hexChars 9 2 || entropyAtLeast tok base64Chars 4 1 then
      let pr := getOrCreatePlaceholder r tok (S "high_entropy")
      let rest := detectHighEntropyTokens pr.2 alreadyRedacted toks
      (⟨tok, pr.1, S "high_entropy", true⟩ :: rest.1, rest.2)
    else detectHighEntropyTokens r alreadyRedacted toks

/-- Phase 0 of `redact`: re-flag every previously mapped original that
occurs in the text, with category `"cached"`. -/
def phase0 (r : Redactor) (text : Str) : List Redaction :=
  r.mapping.filterMap (fun e =>
    if OccursIn e.1 text then some ⟨e.1, e.2, S "cached", true⟩ else none)

/-- Phase 1 of `redact`: user-defined terms occurring in the text that
are not yet mapped are recorded in both tables. -/
def phase1 (text : Str) : Redactor → List (Str × Str) → List Redaction × Redactor
  | r, [] => ([], r)
  | r, (term, p) :: rest =>
    if OccursIn term text ∧ dictGet r.mapping term = none then
      let r' := { r with mapping := dictInsert r.mapping term p,
                         reverse := dictInsert r.reverse p term }
      let res := phase1 text r' rest
      (⟨term, p, S "user_term", true⟩ :: res.1, res.2)
    else phase1 text r rest

/-- Phase 2 of `redact` over the regex matches `(value, category)` in
pattern order: skip already-mapped values and values shorter than 4
characters (except category `"ipv4"`), else mint/reuse a placeholder. -/
def phase2 : Redactor → List (Str × Str) → List Redaction × Redactor
  | r, [] => ([], r)
  | r, (value, category) :: rest =>
    if (dictGet r.mapping value).isSome then phase2 r rest
    else if value.length < 4 ∧ category ≠ S "ipv4" then phase2 r rest
    else
      let pr := getOrCreatePlaceholder r value category
      let res := phase2 pr.2 rest
      (⟨value, pr.1, category, true⟩ :: res.1, res.2)

/-- Phase 4 of `redact` over confidence-filtered NER results
`(value, category)` in ascending start order: skip empty/short values
and values already mapped or already flagged in this call. -/
def phase4 : Redactor → List Str → List (Str × Str) → List Redaction × Redactor
  | r, _, [] => ([], r)
  | r, already, (value, category) :: rest =>
    if value.length < 2 then phase4 r already rest
    else if (dictGet r.mapping value).isSome || already.contains value then
      phase4 r already rest
    else
      let pr := getOrCreatePlaceholder r value category
      let res := phase4 pr.2 (already ++ [value]) rest
      (⟨value, pr.1, category, true⟩ :: res.1, res.2)

/-- Deduplicate the redaction list by original value, keeping the first
occurrence (the final loop of `redact`). -/
def dedupByOriginalAux (seen : List Str) : List Redaction → List Redaction
  | [] => []
  | rd :: rest =>
    if seen.contains rd.original then dedupByOriginalAux seen rest
    else rd :: dedupByOriginalAux (rd.original :: seen) rest

/-- Deduplicate a redaction list by original value. -/
def dedupByOriginal (l : List Redaction) : List Redaction :=
  dedupByOriginalAux [] l

/-- `Redactor.redact`.  The Pattern Library (phase 2) and the external
NER collaborator (phase 4) are abstracted as functions from the text to
their `(value, category)` detection streams — `redact` is proved below
for every such stream, which covers the fixed regex catalog of
`_PATTERNS` as one instance.  When NER is disabled or the backend is
unavailable the phase-4 stream is empty. -/
def redactFlags (r : Redactor) (text : Str)
    (patternDets : Str → List (Str × Str))
    (nerDets : Str → List (Str × Str)) :
    List Redaction × Redactor :=
  let rs0 := phase0 r text
  let p1 := phase1 text r r.userTerms
  let p2 := phase2 p1.2 (patternDets text)
  let rsA := rs0 ++ p1.1 ++ p2.1
  let p3 := detectHighEntropyTokens p2.2 (rsA.map (·.original)) (tokenize text)
  let rsB := rsA ++ p3.1
  let p4 :=
    if r.nerEnabled then phase4 p3.2 (rsB.map (·.original)) (nerDets text)
    else ([], p3.2)
  (rsB ++ p4.1, p4.2)

/-- The substitution pass of `redact`: apply all flagged redactions to
the text, longest original first. -/
def applyRedactions (redactions : List Redaction) (text : Str) : Str :=
  (sortByKeyDesc (fun rd => rd.original.length) redactions).foldl
    (fun t rd => replaceAll rd.original rd.placeholder t) text

def redact (r : Redactor) (text : Str)
    (patternDets : Str → List (Str × Str))
    (nerDets : Str → List (Str × Str)) :
    Str × List Redaction × Redactor :=
  let f := redactFlags r text patternDets nerDets
  (applyRedactions f.1 text, dedupByOriginal f.1, f.2)

/-- `Redactor.unredact`: replace every known placeholder with its
original, longest placeholder first. -/
def unredact (r : Redactor) (text : Str) : Str :=
  (sortByKeyDesc (fun e => e.1.length) r.reverse).foldl
    (fun t e => replaceAll e.1 e.2 t) text

/-- `Redactor.add_manual_redaction`. -/
def addManualRedaction (r : Redactor) (original text : Str) :
    Str × Redaction × Redactor :=
  let pr := getOrCreatePlaceholder r original (S "manual")
  (replaceAll original pr.1 text, ⟨original, pr.1, S "manual", false⟩, pr.2)

/-- `Redactor.remove_redaction`: reverses one redaction in the given
text only; the store is untouched. -/
def removeRedaction (rd : Redaction) (text : Str) : Str :=
  replaceAll rd.placeholder rd.original text

/-- The loop of `Redactor.get_mapping_table`, including its
(dict-keys-are-unique, hence vacuous) `seen` filter.  Note the third
tuple component the code emits is the empty string. -/
def getMappingTableAux (seen : List Str) :
    List (Str × Str) → List (Str × Str × Str)
  | [] => []
  | (o, p) :: rest =>
    if seen.contains o then getMappingTableAux seen rest
    else (o, p, S "") :: getMappingTableAux (o :: seen) rest

/-- `Redactor.get_mapping_table`. -/
def getMappingTable (r : Redactor) : List (Str × Str × Str) :=
  getMappingTableAux [] r.mapping

/-- Python `str.isspace` characters (ASCII range), for `str.strip()`. -/
def isPySpace (c : Char) : Bool :=
  let n := c.toNat
  n == 32 || (9 ≤ n && n ≤ 13)

/-- Python `s.strip()` (ASCII whitespace). -/
def stripWS (s : Str) : Str :=
  ((s.dropWhile isPySpace).reverse.dropWhile isPySpace).reverse

/-- ASCII decimal digit test. -/
def isDigitC (c : Char) : Bool := 48 ≤ c.toNat && c.toNat ≤ 57

/-- Value of an ASCII decimal digit. -/
def digitVal (c : Char) : Nat := c.toNat - 48

/-- ASCII hexadecimal digit test. -/
def isHexC (c : Char) : Bool :=
  isDigitC c || (97 ≤ c.toNat && c.toNat ≤ 102) || (65 ≤ c.toNat && c.toNat ≤ 70)

/-- Value of an ASCII hexadecimal digit. -/
def hexVal (c : Char) : Nat :=
  if isDigitC c then c.toNat - 48
  else if 97 ≤ c.toNat then c.toNat - 87
  else c.toNat - 55

/-- Lowercase hex digit character for `n < 16` (Python `'%x'`). -/
def hexDigitChar (n : Nat) : Char :=
  if n < 10 then Char.ofNat (48 + n) else Char.ofNat (87 + n)

/-- Fuel-driven core of `natHexDigs`. -/
def natHexDigsF : Nat → Nat → Str
  | 0, n => [hexDigitChar n]
  | fuel + 1, n =>
    if n < 16 then [hexDigitChar n]
    else natHexDigsF fuel (n / 16) ++ [hexDigitChar (n % 16)]

/-- Lowercase hexadecimal rendering of a natural (Python `'%x' % n`). -/
def natHexDigs (n : Nat) : Str := natHexDigsF n n

/-- Python `s.split(sep)` for a one-character separator: always returns a
non-empty list, with empty pieces preserved. -/
def splitOnChar (sep : Char) : Str → List Str
  | [] => [[]]
  | c :: rest =>
    if c == sep then [] :: splitOnChar sep rest
    else
      match splitOnChar sep rest with
      | [] => [[c]]
      | h :: t => (c :: h) :: t

/-- `ipaddress._parse_octet`: 1–3 ASCII digits, no leading zero (except
`"0"` itself), value at most 255. -/
def parseOctet (o : Str) : Option Nat :=
  if o = [] then none
  else if !o.all isDigitC then none
  else if 3 < o.length then none
  else if o.headD ' ' == '0' ∧ o ≠ ['0'] then none
  else
    let v := o.foldl (fun a c => a * 10 + digitVal c) 0
    if 255 < v then none else some v

/-- `IPv4Address` string parsing: exactly four strict octets. -/
def parseIPv4 (s : Str) : Option Nat :=
  if s = [] then none
  else
    match splitOnChar '.' s with
    | [a, b, c, d] =>
      match parseOctet a, parseOctet b, parseOctet c, parseOctet d with
      | some x, some y, some z, some w =>
        some (((x * 256 + y) * 256 + z) * 256 + w)
      | _, _, _, _ => none
    | _ => none

/-- `ipaddress._parse_hextet`: 1–4 hex digits. -/
def parseHextet (h : Str) : Option Nat :=
  if !h.all isHexC then none
  else if 4 < h.length then none
  else if h = [] then none
  else some (h.foldl (fun a c => a * 16 + hexVal c) 0)

/-- Accumulate hextets into a big-endian integer, failing on a bad part. -/
def foldHextets (acc : Option Nat) (l : List Str) : Option Nat :=
  l.foldl
    (fun a h =>
      match a, parseHextet h with
      | some x, some v => some (x * 65536 + v)
      | _, _ => none)
    acc

/-- The IPv4-suffix conversion step of `_BaseV6._ip_int_from_string`:
when the last colon-separated part contains a dot, parse it as an IPv4
address and replace it with its two hextets (rendered in hex, as the
library does before re-parsing them). -/
def parseIPv6WithV4 (parts0 : List Str) : Option (List Str) :=
  match parts0.reverse with
  | [] => none
  | lastP :: revInit =>
    if lastP.contains '.' then
      match parseIPv4 lastP with
      | none => none
      | some v =>
        some ((natHexDigs (v % 65536) :: natHexDigs (v / 65536) :: revInit).reverse)
    else some parts0

/-- The assembly step of `_BaseV6._ip_int_from_string`: locate at most
one interior `::` marker, check the endpoint rules, and fold the
hextets around the skipped zero run. -/
def parseIPv6Assemble (parts : List Str) : Option Nat :=
  if 9 < parts.length then none
  else
    let emptiesIdx := (List.range parts.length).filter
      (fun i => 0 < i ∧ i + 1 < parts.length ∧ parts.getD i [' '] = [])
    let headEmpty := parts.headD [' '] = []
    let lastEmpty := parts.getLastD [' '] = []
    match emptiesIdx with
    | _ :: _ :: _ => none
    | [i] =>
      let partsHi0 := i
      let partsLo0 := parts.length - i - 1
      if headEmpty ∧ partsHi0 ≠ 1 then none
      else if lastEmpty ∧ partsLo0 ≠ 1 then none
      else
        let partsHi := if headEmpty then partsHi0 - 1 else partsHi0
        let partsLo := if lastEmpty then partsLo0 - 1 else partsLo0
        if 8 - (partsHi + partsLo) < 1 ∨ 8 < partsHi + partsLo then none
        else
          let skipped := 8 - (partsHi + partsLo)
          match foldHextets (some 0) (parts.take partsHi) with
          | none => none
          | some hi =>
            foldHextets (some (hi * 65536 ^ skipped))
              ((parts.reverse.take partsLo).reverse)
    | [] =>
      if parts.length ≠ 8 then none
      else if headEmpty ∨ lastEmpty then none
      else foldHextets (some 0) parts

/-- `IPv6Address` string parsing (`_BaseV6._ip_int_from_string`): split
on colons, require at least 3 parts, convert an IPv4-style suffix, then
assemble. -/
def parseIPv6 (s : Str) : Option Nat :=
  if s = [] then none
  else
    let parts0 := splitOnChar ':' s
    if parts0.length < 3 then none
    else
      match parseIPv6WithV4 parts0 with
      | none => none
      | some parts => parseIPv6Assemble parts

/-- An IP address as `ipaddress.ip_address` returns it (any scope id of
an IPv6 address is dropped: the numeric value alone enters the
membership test). -/
inductive IpAddr
  | v4 (val : Nat)
  | v6 (val : Nat)
deriving DecidableEq, Repr

/-- `IPv6Address._split_scope_id`: an optional `%scope` suffix; the scope
must be non-empty and contain no further `%`. -/
def splitScopeAddr (s : Str) : Option Str :=
  if s.contains '%' then
    let addr := s.takeWhile (fun c => !(c == '%'))
    let scope := (s.dropWhile (fun c => !(c == '%'))).drop 1
    if scope = [] ∨ scope.contains '%' then none else some addr
  else some s

/-- `ipaddress.ip_address(s)`: try IPv4, then IPv6 (with scope id). -/
def ipAddress (s : Str) : Option IpAddr :=
  match parseIPv4 s with
  | some v => some (.v4 v)
  | none =>
    match splitScopeAddr s with
    | none => none
    | some addr => (parseIPv6 addr).map .v6

/-- An IP network as `ipaddress.ip_network(·, strict=False)` builds it:
version, raw address and prefix length.  Membership only compares the
upper `prefixLen` bits, so the raw (unmasked) address is kept. -/
structure IpNet where
  isV4 : Bool
  addr : Nat
  prefixLen : Nat
deriving DecidableEq, Repr

/-- `ipaddress._prefix_from_prefix_string`: ASCII digits only (leading
zeros permitted, as Python `int` accepts them), bounded by the maximum
prefix length. -/
def prefixFromStr (maxLen : Nat) (p : Str) : Option Nat :=
  if p ≠ [] ∧ p.all isDigitC then
    let v := p.foldl (fun a c => a * 10 + digitVal c) 0
    if v ≤ maxLen then some v else none
  else none

/-- Find the prefix length whose netmask over `bits` bits equals `m`. -/
def prefixFromMaskVal (bits : Nat) (m : Nat) : Option Nat :=
  (List.range (bits + 1)).find? (fun p => m == 2 ^ bits - 2 ^ (bits - p))

/-- `ipaddress._prefix_from_ip_string` for IPv4: accept a dotted netmask
(ones-then-zeros) or hostmask (its complement). -/
def prefixFromIpStr4 (p : Str) : Option Nat :=
  match parseIPv4 p with
  | none => none
  | some m =>
    match prefixFromMaskVal 32 m with
    | some pl => some pl
    | none => prefixFromMaskVal 32 ((2 ^ 32 - 1) - m)

/-- `ipaddress._prefix_from_ip_string` for IPv6. -/
def prefixFromIpStr6 (p : Str) : Option Nat :=
  match parseIPv6 p with
  | none => none
  | some m =>
    match prefixFromMaskVal 128 m with
    | some pl => some pl
    | none => prefixFromMaskVal 128 ((2 ^ 128 - 1) - m)

/-- `IPv4Network(s, strict=False)`: at most one `/`; the mask may be a
prefix length or a dotted netmask/hostmask; default mask 32. -/
def ipv4Network (s : Str) : Option IpNet :=
  match splitOnChar '/' s with
  | [a] => (parseIPv4 a).map (fun v => ⟨true, v, 32⟩)
  | [a, p] =>
    match parseIPv4 a with
    | none => none
    | some v =>
      match prefixFromStr 32 p with
      | some pl => some ⟨true, v, pl⟩
      | none => (prefixFromIpStr4 p).map (fun pl => ⟨true, v, pl⟩)
  | _ => none

/-- `IPv6Network(s, strict=False)` (no scope id is accepted here). -/
def ipv6Network (s : Str) : Option IpNet :=
  match splitOnChar '/' s with
  | [a] => (parseIPv6 a).map (fun v => ⟨false, v, 128⟩)
  | [a, p] =>
    match parseIPv6 a with
    | none => none
    | some v =>
      match prefixFromStr 128 p with
      | some pl => some ⟨false, v, pl⟩
      | none => (prefixFromIpStr6 p).map (fun pl => ⟨false, v, pl⟩)
  | _ => none

/-- `ipaddress.ip_network(s, strict=False)`: IPv4 first, then IPv6. -/
def ipNetwork (s : Str) : Option IpNet :=
  match ipv4Network s with
  | some n => some n
  | none => ipv6Network s

/-- `host_ip in network`: false across versions, else the top
`prefixLen` bits must agree (the quotient by `2^(bits - prefixLen)`
is exactly the netmask comparison the library performs). -/
def netContains (n : IpNet) (a : IpAddr) : Bool :=
  match a with
  | .v4 v => n.isV4 && decide (v / 2 ^ (32 - n.prefixLen) = n.addr / 2 ^ (32 - n.prefixLen))
  | .v6 v => !n.isV4 && decide (v / 2 ^ (128 - n.prefixLen) = n.addr / 2 ^ (128 - n.prefixLen))

/-- The per-pattern test inside the loop of `is_host_allowed`: strip the
pattern, skip it when blank, then try case-insensitive exact equality,
the `*.domain` wildcard, and (for patterns containing `/`) the CIDR
test — where a pattern that is not a valid network or a host that is
not an IP literal simply fails to match (the `try/except` skip). -/
def patternMatches (hostLower host pattern : Str) : Bool :=
  let p := stripWS pattern
  if p = [] then false
  else
    let pl := lowerS p
    (hostLower == pl) ||
    ((S "*.").isPrefixOf pl &&
      (decide (pl.drop 1 <:+ hostLower) || hostLower == pl.drop 2)) ||
    (p.contains '/' &&
      (match ipNetwork p, ipAddress host with
       | some n, some a => netContains n a
       | _, _ => false))

/-- `network.is_host_allowed`. -/
def isHostAllowed (host : Str) (allowedHosts : List Str) : Bool :=
  if allowedHosts = [] then false
  else allowedHosts.any (patternMatches (lowerS host) host)

/-- WHATWG C0-control-or-space class stripped from URL starts. -/
def isC0OrSpace (c : Char) : Bool := c.toNat ≤ 32

/-- Characters allowed in a URL scheme after the first letter. -/
def isSchemeChar (c : Char) : Bool :=
  c.isAlpha || isDigitC c || c == '+' || c == '-' || c == '.'

/-- Strip a `scheme:` prefix as `urlsplit` does: the part before the
first `:` must start with an ASCII letter and consist of scheme
characters. -/
def stripScheme (url : Str) : Str :=
  match url.findIdx? (fun c => c == ':') with
  | none => url
  | some i =>
    if 0 < i ∧ (url.take 1).all Char.isAlpha ∧ (url.take i).all isSchemeChar then
      url.drop (i + 1)
    else url

/-- A bracketed host must be an IPv6 literal (possibly scoped), or an
IPvFuture literal of shape `v<hex>+.<char>+`; a bracketed IPv4 literal is rejected
(`urllib.parse._check_bracketed_host`). -/
def bracketedHostOK (h : Str) : Bool :=
  if (S "v").isPrefixOf h then
    match h with
    | _ :: t =>
      let hex := t.takeWhile isHexC
      let rest := t.drop hex.length
      !hex.isEmpty && ((S ".").isPrefixOf rest) && !(rest.drop 1).isEmpty
    | [] => false
  else
    match ipAddress h with
    | some (.v6 _) => true
    | _ => false

/-- Hostname of a netloc (`_NetlocResultMixinStr._hostinfo` followed by
the `hostname` property): drop userinfo up to the last `@`, take the
bracketed part or the part before the first `:`, reject an empty
result, and lowercase the part before any `%` zone id. -/
def hostFromNetloc (netloc : Str) : Option Str :=
  let hostinfo := ((netloc.reverse.takeWhile (fun c => !(c == '@')))).reverse
  let hostname :=
    if hostinfo.contains '[' then
      ((hostinfo.dropWhile (fun c => !(c == '['))).drop 1).takeWhile (fun c => !(c == ']'))
    else hostinfo.takeWhile (fun c => !(c == ':'))
  if hostname = [] then none
  else
    let hostPart := hostname.takeWhile (fun c => !(c == '%'))
    let zonePart := hostname.dropWhile (fun c => !(c == '%'))
    some (lowerS hostPart ++ zonePart)

/-- `network.extract_host` via `urlparse(url).hostname` (Python 3.11
`urlsplit`): strip leading C0 controls/space, delete tab/CR/LF, strip a
scheme, require a `//` netloc, check bracket pairing and bracketed-host
validity, then extract and lowercase the hostname.  `none` models every
`ValueError` path as well as a missing host. -/
def extractHost (url : Str) : Option Str :=
  let u0 := url.dropWhile isC0OrSpace
  let u1 := u0.filter (fun c => !(c.toNat == 9 || c.toNat == 13 || c.toNat == 10))
  let u2 := stripScheme u1
  if (S "//").isPrefixOf u2 then
    let netloc := (u2.drop 2).takeWhile (fun c => !(c == '/' || c == '?' || c == '#'))
    if (netloc.contains '[' && !netloc.contains ']') ||
       (netloc.contains ']' && !netloc.contains '[') then none
    else if netloc.contains '[' && netloc.contains ']' then
      let bracketed :=
        ((netloc.dropWhile (fun c => !(c == '['))).drop 1).takeWhile (fun c => !(c == ']'))
      if bracketedHostOK bracketed then hostFromNetloc netloc else none
    else hostFromNetloc netloc
  else none

/-- Outcome of `network.validate_endpoint`: pass, `ValueError`
(malformed URL), or `BlockedHostError` with its `host` and `endpoint`
diagnostic fields. -/
inductive ValidateResult
  | ok
  | malformedURL
  | blockedHost (host : Str) (endpoint : Str)
deriving DecidableEq, Repr

/-- `network.validate_endpoint`. -/
def validateEndpoint (url : Str) (allowedHosts : List Str) (enforce : Bool) :
    ValidateResult :=
  if !enforce then .ok
  else
    match extractHost url with
    | none => .malformedURL
    | some host =>
      if isHostAllowed host allowedHosts then .ok
      else .blockedHost host url

/-! ### Basic facts about the host matcher -/

/-- C2: `validate_endpoint` always passes when `enforce` is false; when
`enforce` is true it fails with `MalformedURL` exactly when no host can
be extracted from the url, otherwise fails with `BlockedHost` (carrying
the offending host and the full endpoint) exactly when
`is_host_allowed` rejects the host, and passes otherwise; in
particular the spec example blocks `evil.com`. -/
theorem validateEndpoint_gate (url : Str) (allowedHosts : List Str) (enforce : Bool) :
    (enforce = false → validateEndpoint url allowedHosts enforce = .ok) ∧
    (enforce = true →
      ((validateEndpoint url allowedHosts enforce = .malformedURL ↔
          extractHost url = none) ∧
        (∀ h, extractHost url = some h →
          ((validateEndpoint url allowedHosts enforce = .blockedHost h url ↔
              isHostAllowed h allowedHosts = false) ∧
            (validateEndpoint url allowedHosts enforce = .ok ↔
              isHostAllowed h allowedHosts = true))))) ∧
    validateEndpoint (S "https://evil.com/v1/chat") [S "api.openai.com"] true
      = .blockedHost (S "evil.com") (S "https://evil.com/v1/chat") := by
  refine ⟨fun h => by simp [validateEndpoint, h], fun h => ⟨?_, ?_⟩, by decide⟩
  · subst h
    cases hex : extractHost url with
    | none => simp [validateEndpoint, hex]
    | some h0 =>
      simp only [validateEndpoint, Bool.not_true, hex]
      cases hAll : isHostAllowed h0 allowedHosts <;> simp [hAll]
  · subst h
    intro h0 hex
    simp only [validateEndpoint, Bool.not_true, hex]
    cases hAll : isHostAllowed h0 allowedHosts <;> simp [hAll]

/-- Closed instances of `validateEndpoint_gate` with its hypotheses
discharged at concrete inputs. -/
theorem validateEndpoint_gate_witness :
    validateEndpoint (S "nonsense") [] false = .ok ∧
    validateEndpoint (S "nonsense") [S "api.openai.com"] true = .malformedURL ∧
    validateEndpoint (S "https://api.openai.com/v1") [S "api.openai.com"] true = .ok := by
  refine ⟨(validateEndpoint_gate (S "nonsense") [] false).1 rfl, ?_, ?_⟩
  · exact ((validateEndpoint_gate (S "nonsense") [S "api.openai.com"] true).2.1 rfl).1.mpr
      (by decide)
  · exact (((validateEndpoint_gate (S "https://api.openai.com/v1") [S "api.openai.com"]
      true).2.1 rfl).2 (S "api.openai.com") (by decide)).2.mpr (by decide)

theorem char_toNat_inj {c d : Char} (h : c.toNat = d.toNat) : c = d := by
  cases c with
  | mk cv hc =>
    cases d with
    | mk dv hd =>
      congr 1
      exact UInt32.ext h

theorem dictGet_none_iff {α : Type} (d : List (Str × α)) (k : Str) :
    dictGet d k = none ↔ k ∉ dictKeys d := by
  unfold dictGet dictKeys
  rw [Option.map_eq_none', List.find?_eq_none]
  constructor
  · intro h hk
    obtain ⟨e, he, hek⟩ := List.mem_map.mp hk
    have hc := h e he
    simp [hek] at hc
  · intro h e he
    simp only [beq_iff_eq]
    intro hek
    exact h (List.mem_map.mpr ⟨e, he, hek⟩)

theorem dictGet_insert_absent {α : Type} (d : List (Str × α)) (k' : Str) (v : α)
    (h : dictGet d k' = none) (k : Str) :
    dictGet (dictInsert d k' v) k = if k = k' then some v else dictGet d k := by
  have hf : d.find? (fun e => e.1 == k') = none := by
    unfold dictGet at h
    rwa [Option.map_eq_none'] at h
  unfold dictInsert
  rw [if_neg (by simp [hf])]
  unfold dictGet
  rw [List.find?_append]
  by_cases hk : k = k'
  · subst hk
    rw [hf]
    simp [List.find?]
  · rw [if_neg hk]
    cases hfk : d.find? (fun e => e.1 == k) with
    | some e => simp [hfk]
    | none =>
      have hne : (((k', v) : Str × α).1 == k) = false := by
        simp only [beq_eq_false_iff_ne, ne_eq]
        exact fun hh => hk hh.symm
      simp [hfk, List.find?, hne]

theorem dictGet_map_update {α : Type} (d : List (Str × α)) (k' : Str) (v : α)
    (k : Str) (hk : k ≠ k') :
    dictGet (d.map (fun e => if e.1 == k' then (k', v) else e)) k = dictGet d k := by
  induction d with
  | nil => rfl
  | cons e t ih =>
    unfold dictGet at *
    simp only [List.map_cons]
    by_cases he : e.1 = k'
    · have hnew : (((if e.1 == k' then (k', v) else e) : Str × α).1 == k) = false := by
        rw [if_pos (by simp [he])]
        simp only [beq_eq_false_iff_ne, ne_eq]
        exact fun hh => hk hh.symm
      have hold : (e.1 == k) = false := by
        simp only [beq_eq_false_iff_ne, ne_eq, he]
        exact fun hh => hk hh.symm
      simp only [List.find?, hnew, hold]
      exact ih
    · have hee : (if (e.1 == k') then ((k', v) : Str × α) else e) = e :=
        if_neg (by simp [he])
      rw [hee]
      simp only [List.find?]
      cases hpe : (e.1 == k) with
      | false =>
        simp only [hpe]
        exact ih
      | true => simp only [hpe]

theorem dictGet_insert_present {α : Type} (d : List (Str × α)) (k' : Str) (v : α)
    (h : dictGet d k' ≠ none) (k : Str) (hk : k ≠ k') :
    dictGet (dictInsert d k' v) k = dictGet d k := by
  unfold dictInsert
  rw [if_pos (by
    unfold dictGet at h
    cases hf : d.find? (fun e => e.1 == k') with
    | none => rw [hf] at h; simp at h
    | some e => simp [hf])]
  exact dictGet_map_update d k' v k hk

theorem dictKeys_insert_absent {α : Type} (d : List (Str × α)) (k : Str) (v : α)
    (h : dictGet d k = none) :
    dictKeys (dictInsert d k v) = dictKeys d ++ [k] := by
  unfold dictInsert
  rw [if_neg (by
    unfold dictGet at h
    rw [Option.map_eq_none'] at h
    simp [h])]
  unfold dictKeys
  rw [List.map_append]
  rfl

theorem dictKeys_insert_present {α : Type} (d : List (Str × α)) (k : Str) (v : α)
    (h : dictGet d k ≠ none) :
    dictKeys (dictInsert d k v) = dictKeys d := by
  unfold dictInsert
  rw [if_pos (by
    unfold dictGet at h
    cases hf : d.find? (fun e => e.1 == k) with
    | none => rw [hf] at h; simp at h
    | some e => simp [hf])]
  unfold dictKeys
  rw [List.map_map]
  apply List.map_congr_left
  intro e _
  by_cases he : e.1 = k
  · simp [Function.comp, he]
  · simp [Function.comp, he]

/-! ### Mapping-store stability through the redact phases -/

theorem getOrCreate_of_present (r : Redactor) (value category p : Str)
    (h : dictGet r.mapping value = some p) :
    getOrCreatePlaceholder r value category = (p, r) := by
  unfold getOrCreatePlaceholder
  rw [h]

theorem getOrCreate_preserves (r : Redactor) (value category k p : Str)
    (h : dictGet r.mapping k = some p) :
    dictGet (getOrCreatePlaceholder r value category).2.mapping k = some p := by
  unfold getOrCreatePlaceholder
  cases hv : dictGet r.mapping value with
  | some q => exact h
  | none =>
    have hkv : k ≠ value := fun hh => by rw [hh, hv] at h; exact Option.noConfusion h
    dsimp only
    rw [dictGet_insert_absent _ _ _ hv, if_neg hkv]
    exact h

theorem getOrCreate_lookup (r : Redactor) (value category : Str) :
    dictGet (getOrCreatePlaceholder r value category).2.mapping value
      = some (getOrCreatePlaceholder r value category).1 := by
  unfold getOrCreatePlaceholder
  cases hv : dictGet r.mapping value with
  | some q => exact hv
  | none =>
    dsimp only
    rw [dictGet_insert_absent _ _ _ hv, if_pos rfl]

theorem getOrCreate_nodup (r : Redactor) (value category : Str)
    (hn : (dictKeys r.mapping).Nodup) :
    (dictKeys (getOrCreatePlaceholder r value category).2.mapping).Nodup := by
  unfold getOrCreatePlaceholder
  cases hv : dictGet r.mapping value with
  | some q => exact hn
  | none =>
    dsimp only
    rw [dictKeys_insert_absent _ _ _ hv]
    exact List.Nodup.append hn (List.nodup_singleton value)
      (List.disjoint_singleton.mpr ((dictGet_none_iff _ _).mp hv))

theorem phase1_preserves (text : Str) (terms : List (Str × Str)) (r : Redactor)
    (k p : Str) (h : dictGet r.mapping k = some p) :
    dictGet (phase1 text r terms).2.mapping k = some p := by
  induction terms generalizing r with
  | nil => exact h
  | cons e rest ih =>
    obtain ⟨term, pl⟩ := e
    unfold phase1
    split
    · next hc =>
      apply ih
      show dictGet (dictInsert r.mapping term pl) k = some p
      have hkt : k ≠ term := fun hh => by rw [hh, hc.2] at h; exact Option.noConfusion h
      rw [dictGet_insert_absent _ _ _ hc.2, if_neg hkt]
      exact h
    · exact ih r h

theorem phase1_nodup (text : Str) (terms : List (Str × Str)) (r : Redactor)
    (hn : (dictKeys r.mapping).Nodup) :
    (dictKeys (phase1 text r terms).2.mapping).Nodup := by
  induction terms generalizing r with
  | nil => exact hn
  | cons e rest ih =>
    obtain ⟨term, pl⟩ := e
    unfold phase1
    split
    · next hc =>
      apply ih
      show (dictKeys (dictInsert r.mapping term pl)).Nodup
      rw [dictKeys_insert_absent _ _ _ hc.2]
      exact List.Nodup.append hn (List.nodup_singleton term)
        (List.disjoint_singleton.mpr ((dictGet_none_iff _ _).mp hc.2))
    · exact ih r hn

theorem phase1_consistent (text : Str) (terms : List (Str × Str)) (r : Redactor) :
    ∀ rd ∈ (phase1 text r terms).1,
      dictGet (phase1 text r terms).2.mapping rd.original = some rd.placeholder := by
  induction terms generalizing r with
  | nil => intro rd h; exact absurd h (List.not_mem_nil rd)
  | cons e rest ih =>
    obtain ⟨term, pl⟩ := e
    unfold phase1
    split
    · next hc =>
      intro rd hrd
      rcases List.mem_cons.mp hrd with h1 | h2
      · subst h1
        dsimp only
        apply phase1_preserves
        show dictGet (dictInsert r.mapping term pl) term = some pl
        rw [dictGet_insert_absent _ _ _ hc.2, if_pos rfl]
      · exact ih _ rd h2
    · exact ih r

theorem phase2_preserves (dets : List (Str × Str)) (r : Redactor) (k p : Str)
    (h : dictGet r.mapping k = some p) :
    dictGet (phase2 r dets).2.mapping k = some p := by
  induction dets generalizing r with
  | nil => exact h
  | cons e rest ih =>
    obtain ⟨value, category⟩ := e
    unfold phase2
    split
    · exact ih r h
    · split
      · exact ih r h
      · exact ih _ (getOrCreate_preserves r value category k p h)

theorem phase2_nodup (dets : List (Str × Str)) (r : Redactor)
    (hn : (dictKeys r.mapping).Nodup) :
    (dictKeys (phase2 r dets).2.mapping).Nodup := by
  induction dets generalizing r with
  | nil => exact hn
  | cons e rest ih =>
    obtain ⟨value, category⟩ := e
    unfold phase2
    split
    · exact ih r hn
    · split
      · exact ih r hn
      · exact ih _ (getOrCreate_nodup r value category hn)

theorem phase2_consistent (dets : List (Str × Str)) (r : Redactor) :
    ∀ rd ∈ (phase2 r dets).1,
      dictGet (phase2 r dets).2.mapping rd.original = some rd.placeholder := by
  induction dets generalizing r with
  | nil => intro rd h; exact absurd h (List.not_mem_nil rd)
  | cons e rest ih =>
    obtain ⟨value, category⟩ := e
    unfold phase2
    split
    · exact ih r
    · split
      · exact ih r
      · intro rd hrd
        rcases List.mem_cons.mp hrd with h1 | h2
        · subst h1
          dsimp only
          exact phase2_preserves rest _ _ _ (getOrCreate_lookup r value category)
        · exact ih _ rd h2

theorem detectHE_preserves (toks : List Str) (already : List Str) (r : Redactor)
    (k p : Str) (h : dictGet r.mapping k = some p) :
    dictGet (detectHighEntropyTokens r already toks).2.mapping k = some p := by
  induction toks generalizing r with
  | nil => exact h
  | cons tok rest ih =>
    unfold detectHighEntropyTokens
    split
    · exact ih r h
    · split
      · exact ih r h
      · split
        · exact ih r h
        · split
          · exact ih r h
          · split
            · exact ih _ (getOrCreate_preserves r tok (S "high_entropy") k p h)
            · exact ih r h

theorem detectHE_nodup (toks : List Str) (already : List Str) (r : Redactor)
    (hn : (dictKeys r.mapping).Nodup) :
    (dictKeys (detectHighEntropyTokens r already toks).2.mapping).Nodup := by
  induction toks generalizing r with
  | nil => exact hn
  | cons tok rest ih =>
    unfold detectHighEntropyTokens
    split
    · exact ih r hn
    · split
      · exact ih r hn
      · split
        · exact ih r hn
        · split
          · exact ih r hn
          · split
            · exact ih _ (getOrCreate_nodup r tok (S "high_entropy") hn)
            · exact ih r hn

theorem detectHE_consistent (toks : List Str) (already : List Str) (r : Redactor) :
    ∀ rd ∈ (detectHighEntropyTokens r already toks).1,
      dictGet (detectHighEntropyTokens r already toks).2.mapping rd.original
        = some rd.placeholder := by
  induction toks generalizing r with
  | nil => intro rd h; exact absurd h (List.not_mem_nil rd)
  | cons tok rest ih =>
    unfold detectHighEntropyTokens
    split
    · exact ih r
    · split
      · exact ih r
      · split
        · exact ih r
        · split
          · exact ih r
          · split
            · intro rd hrd
              rcases List.mem_cons.mp hrd with h1 | h2
              · subst h1
                dsimp only
                exact detectHE_preserves rest _ _ _ _
                  (getOrCreate_lookup r tok (S "high_entropy"))
              · exact ih _ rd h2
            · exact ih r

theorem phase4_preserves (dets : List (Str × Str)) (already : List Str)
    (r : Redactor) (k p : Str) (h : dictGet r.mapping k = some p) :
    dictGet (phase4 r already dets).2.mapping k = some p := by
  induction dets generalizing r already with
  | nil => exact h
  | cons e rest ih =>
    obtain ⟨value, category⟩ := e
    unfold phase4
    split
    · exact ih _ r h
    · split
      · exact ih _ r h
      · exact ih _ _ (getOrCreate_preserves r value category k p h)

theorem phase4_nodup (dets : List (Str × Str)) (already : List Str) (r : Redactor)
    (hn : (dictKeys r.mapping).Nodup) :
    (dictKeys (phase4 r already dets).2.mapping).Nodup := by
  induction dets generalizing r already with
  | nil => exact hn
  | cons e rest ih =>
    obtain ⟨value, category⟩ := e
    unfold phase4
    split
    · exact ih _ r hn
    · split
      · exact ih _ r hn
      · exact ih _ _ (getOrCreate_nodup r value category hn)

theorem phase4_consistent (dets : List (Str × Str)) (already : List Str)
    (r : Redactor) :
    ∀ rd ∈ (phase4 r already dets).1,
      dictGet (phase4 r already dets).2.mapping rd.original = some rd.placeholder := by
  induction dets generalizing r already with
  | nil => intro rd h; exact absurd h (List.not_mem_nil rd)
  | cons e rest ih =>
    obtain ⟨value, category⟩ := e
    unfold phase4
    split
    · exact ih _ r
    · split
      · exact ih _ r
      · intro rd hrd
        rcases List.mem_cons.mp hrd with h1 | h2
        · subst h1
          dsimp only
          exact phase4_preserves rest _ _ _ _ (getOrCreate_lookup r value category)
        · exact ih _ _ rd h2

theorem dictGet_of_mem {α : Type} {d : List (Str × α)} (hn : (dictKeys d).Nodup)
    {e : Str × α} (he : e ∈ d) : dictGet d e.1 = some e.2 := by
  induction d with
  | nil => cases he
  | cons f t ih =>
    have hn' : f.1 ∉ dictKeys t ∧ (dictKeys t).Nodup := by
      have : dictKeys (f :: t) = f.1 :: dictKeys t := rfl
      rw [this] at hn
      exact ⟨(List.nodup_cons.mp hn).1, (List.nodup_cons.mp hn).2⟩
    rcases List.mem_cons.mp he with h1 | h2
    · subst h1
      unfold dictGet
      simp only [List.find?, beq_self_eq_true]
      rfl
    · have hf : (f.1 == e.1) = false := by
        simp only [beq_eq_false_iff_ne, ne_eq]
        intro hh
        exact hn'.1 (hh ▸ List.mem_map.mpr ⟨e, h2, rfl⟩)
      unfold dictGet
      simp only [List.find?, hf]
      exact ih hn'.2 h2

theorem phase0_consistent (r : Redactor) (text : Str)
    (hn : (dictKeys r.mapping).Nodup) :
    ∀ rd ∈ phase0 r text, dictGet r.mapping rd.original = some rd.placeholder := by
  intro rd hrd
  unfold phase0 at hrd
  obtain ⟨e, he, hfe⟩ := List.mem_filterMap.mp hrd
  by_cases ho : OccursIn e.1 text
  · rw [if_pos ho] at hfe
    have h1 : rd.original = e.1 := by rw [← Option.some_inj.mp hfe]
    have h2 : rd.placeholder = e.2 := by rw [← Option.some_inj.mp hfe]
    rw [h1, h2]
    exact dictGet_of_mem hn he
  · rw [if_neg ho] at hfe
    exact Option.noConfusion hfe

theorem dedupByOriginalAux_subset (seen : List Str) (l : List Redaction) :
    ∀ rd ∈ dedupByOriginalAux seen l, rd ∈ l := by
  induction l generalizing seen with
  | nil => intro rd h; exact absurd h (List.not_mem_nil rd)
  | cons x rest ih =>
    unfold dedupByOriginalAux
    split
    · intro rd h
      exact List.mem_cons_of_mem x (ih _ rd h)
    · intro rd h
      rcases List.mem_cons.mp h with h1 | h2
      · exact h1 ▸ List.mem_cons_self x rest
      · exact List.mem_cons_of_mem x (ih _ rd h2)

theorem redactFlags_preserves (r : Redactor) (text : Str)
    (dets ner : Str → List (Str × Str)) (k p : Str)
    (h : dictGet r.mapping k = some p) :
    dictGet (redactFlags r text dets ner).2.mapping k = some p := by
  unfold redactFlags
  dsimp only
  by_cases hne : r.nerEnabled = true
  · rw [if_pos hne]
    exact phase4_preserves _ _ _ _ _ (detectHE_preserves _ _ _ _ _
      (phase2_preserves _ _ _ _ (phase1_preserves _ _ _ _ _ h)))
  · rw [if_neg hne]
    exact detectHE_preserves _ _ _ _ _
      (phase2_preserves _ _ _ _ (phase1_preserves _ _ _ _ _ h))

theorem redactFlags_nodup (r : Redactor) (text : Str)
    (dets ner : Str → List (Str × Str)) (hn : (dictKeys r.mapping).Nodup) :
    (dictKeys (redactFlags r text dets ner).2.mapping).Nodup := by
  unfold redactFlags
  dsimp only
  by_cases hne : r.nerEnabled = true
  · rw [if_pos hne]
    exact phase4_nodup _ _ _ (detectHE_nodup _ _ _
      (phase2_nodup _ _ (phase1_nodup _ _ _ hn)))
  · rw [if_neg hne]
    exact detectHE_nodup _ _ _ (phase2_nodup _ _ (phase1_nodup _ _ _ hn))

theorem redactFlags_consistent (r : Redactor) (text : Str)
    (dets ner : Str → List (Str × Str)) (hn : (dictKeys r.mapping).Nodup) :
    ∀ rd ∈ (redactFlags r text dets ner).1,
      dictGet (redactFlags r text dets ner).2.mapping rd.original
        = some rd.placeholder := by
  unfold redactFlags
  dsimp only
  by_cases hne : r.nerEnabled = true
  · rw [if_pos hne]
    intro rd hrd
    rcases List.mem_append.mp hrd with hB | h4
    · rcases List.mem_append.mp hB with hA | h3
      · rcases List.mem_append.mp hA with hA' | h2
        · rcases List.mem_append.mp hA' with h0 | h1
          · exact phase4_preserves _ _ _ _ _ (detectHE_preserves _ _ _ _ _
              (phase2_preserves _ _ _ _ (phase1_preserves _ _ _ _ _
                (phase0_consistent r text hn rd h0))))
          · exact phase4_preserves _ _ _ _ _ (detectHE_preserves _ _ _ _ _
              (phase2_preserves _ _ _ _ (phase1_consistent text r.userTerms r rd h1)))
        · exact phase4_preserves _ _ _ _ _ (detectHE_preserves _ _ _ _ _
            (phase2_consistent (dets text) _ rd h2))
      · exact phase4_preserves _ _ _ _ _
          (detectHE_consistent (tokenize text) _ _ rd h3)
    · exact phase4_consistent (ner text) _ _ rd h4
  · rw [if_neg hne]
    intro rd hrd
    rcases List.mem_append.mp hrd with hB | h4
    · rcases List.mem_append.mp hB with hA | h3
      · rcases List.mem_append.mp hA with hA' | h2
        · rcases List.mem_append.mp hA' with h0 | h1
          · exact detectHE_preserves _ _ _ _ _
              (phase2_preserves _ _ _ _ (phase1_preserves _ _ _ _ _
                (phase0_consistent r text hn rd h0)))
          · exact detectHE_preserves _ _ _ _ _
              (phase2_preserves _ _ _ _ (phase1_consistent text r.userTerms r rd h1))
        · exact detectHE_preserves _ _ _ _ _
            (phase2_consistent (dets text) _ rd h2)
      · exact detectHE_consistent (tokenize text) _ _ rd h3
    · exact absurd h4 (List.not_mem_nil rd)

/-- C3: stable tagging — every mapping entry survives a `redact` call
unchanged; every redaction a call reports carries exactly the
placeholder stored for its original in the final Mapping Store (so two
redactions of the same value, within one call or across calls, always
carry the same placeholder); `_get_or_create_placeholder` returns the
stored placeholder, untouched state and mints nothing for a known
original; `add_manual_redaction` records the same stable pair; and key
uniqueness of the store is preserved. -/
theorem stable_tagging (r : Redactor) (text orig t category : Str)
    (dets ner : Str → List (Str × Str))
    (hn : (dictKeys r.mapping).Nodup) :
    (∀ k p, dictGet r.mapping k = some p →
      dictGet (redact r text dets ner).2.2.mapping k = some p) ∧
    (∀ rd ∈ (redact r text dets ner).2.1,
      dictGet (redact r text dets ner).2.2.mapping rd.original
        = some rd.placeholder) ∧
    (∀ p, dictGet r.mapping orig = some p →
      getOrCreatePlaceholder r orig category = (p, r)) ∧
    dictGet (addManualRedaction r orig t).2.2.mapping orig
      = some (addManualRedaction r orig t).2.1.placeholder ∧
    (dictKeys (redact r text dets ner).2.2.mapping).Nodup := by
  refine ⟨?_, ?_, fun p h => getOrCreate_of_present r orig category p h, ?_, ?_⟩
  · intro k p h
    exact redactFlags_preserves r text dets ner k p h
  · intro rd hrd
    exact redactFlags_consistent r text dets ner hn rd
      (dedupByOriginalAux_subset [] _ rd hrd)
  · exact getOrCreate_lookup r orig (S "manual")
  · exact redactFlags_nodup r text dets ner hn

/-- Closed instance of `stable_tagging`: after one call has tagged
`10.0.0.1` as `[IP_1]`, a second `_get_or_create_placeholder` for the
same value returns `[IP_1]` again with the state untouched. -/
theorem stable_tagging_witness :
    getOrCreatePlaceholder
        (redact (Redactor.init [] false) (S "Server 10.0.0.1 is up")
          (fun _ => [(S "10.0.0.1", S "ipv4")]) (fun _ => [])).2.2
        (S "10.0.0.1") (S "ipv4")
      = (S "[IP_1]",
        (redact (Redactor.init [] false) (S "Server 10.0.0.1 is up")
          (fun _ => [(S "10.0.0.1", S "ipv4")]) (fun _ => [])).2.2) :=
  (stable_tagging _ (S "") (S "10.0.0.1") (S "") (S "ipv4")
    (fun _ => []) (fun _ => []) (by decide)).2.2.1 (S "[IP_1]") (by decide)

/-! ### C9, and the counterexamples for C1 and C6 -/

/-- C9: `get_mapping_table` is documented (docstring and spec) to return
`(original, placeholder, category)` triples, but the Mapping Store
never records categories and the code emits the empty string as the
third component: after tagging `10.0.0.1` under category `"ipv4"`, the
table row carries `""`, not `"ipv4"`. -/
theorem getMappingTable_category_empty :
    getMappingTable (redact (Redactor.init [] false) (S "Server 10.0.0.1 is up")
        (fun _ => [(S "10.0.0.1", S "ipv4")]) (fun _ => [])).2.2
      = [(S "10.0.0.1", S "[IP_1]", S "")] ∧
    (S "" : Str) ≠ S "ipv4" ∧
    (∀ r : Redactor, ∀ e ∈ getMappingTable r, e.2.2 = S "") := by
  refine ⟨by decide, by decide, ?_⟩
  intro r e he
  unfold getMappingTable at he
  generalize hseen : ([] : List Str) = seen at he
  clear hseen
  generalize hm : r.mapping = m at he
  clear hm
  induction m generalizing seen with
  | nil => exact absurd he (List.not_mem_nil e)
  | cons f t ih =>
    obtain ⟨o, p⟩ := f
    unfold getMappingTableAux at he
    split at he
    · exact ih seen he
    · rcases List.mem_cons.mp he with h1 | h2
      · rw [h1]
      · exact ih _ h2

/-- C1 counterexample: a reachable Redactor state (two manual
redactions, `XY ↦ [REDACTED_1]` and `ED ↦ [REDACTED_2]`) and the text
`"XY w ED"`, which contains no placeholder-shaped substring at all (no
bracket appears in it, and no placeholder of the store — before or
after the call — occurs in it); yet unredact does not invert redact:
the masked text de-masks to `"[REDACTED_1] w ED"`, because the
substitution of `ED` (performed after the equally long `XY`) corrupts
the interior of `[REDACTED_1]`. -/
theorem roundtrip_counterexample :
    (∀ e ∈ ((addManualRedaction
        (addManualRedaction (Redactor.init [] false) (S "XY") (S "")).2.2
        (S "ED") (S "")).2.2).mapping, ¬ OccursIn e.2 (S "XY w ED")) ∧
    (∀ e ∈ (redact (addManualRedaction
        (addManualRedaction (Redactor.init [] false) (S "XY") (S "")).2.2
        (S "ED") (S "")).2.2 (S "XY w ED") (fun _ => []) (fun _ => [])).2.2.mapping,
      ¬ OccursIn e.2 (S "XY w ED")) ∧
    unredact
      (redact (addManualRedaction
        (addManualRedaction (Redactor.init [] false) (S "XY") (S "")).2.2
        (S "ED") (S "")).2.2 (S "XY w ED") (fun _ => []) (fun _ => [])).2.2
      (redact (addManualRedaction
        (addManualRedaction (Redactor.init [] false) (S "XY") (S "")).2.2
        (S "ED") (S "")).2.2 (S "XY w ED") (fun _ => []) (fun _ => [])).1
      ≠ S "XY w ED" := by
  refine ⟨by decide, by decide, by decide⟩

/-- C6 counterexample: with user terms `a ↦ [X_1]` and `b ↦ [X_1]`
(arbitrary configured placeholders, as the claim allows), one `redact`
call leaves the forward table non-injective and the reverse table is
not its inverse: `reverse(forward("a")) = "b"`. -/
theorem bijectivity_counterexample :
    dictGet (redact (Redactor.init [(S "a", S "[X_1]"), (S "b", S "[X_1]")] false)
        (S "a b") (fun _ => []) (fun _ => [])).2.2.mapping (S "a")
      = some (S "[X_1]") ∧
    dictGet (redact (Redactor.init [(S "a", S "[X_1]"), (S "b", S "[X_1]")] false)
        (S "a b") (fun _ => []) (fun _ => [])).2.2.mapping (S "b")
      = some (S "[X_1]") ∧
    dictGet (redact (Redactor.init [(S "a", S "[X_1]"), (S "b", S "[X_1]")] false)
        (S "a b") (fun _ => []) (fun _ => [])).2.2.reverse (S "[X_1]")
      = some (S "b") ∧
    (S "b" : Str) ≠ S "a" := by
  refine ⟨by decide, by decide, by decide, by decide⟩

/-! ### Real-valued Shannon entropy and the exact threshold test -/

/-- The real-valued Shannon entropy computed by `_shannon_entropy`:
filter to the charset, return 0 for fewer than two characters, else
`-∑ (count/length) · log₂ (count/length)` over the distinct filtered
characters.  The detector's executable threshold test is
`entropyAtLeast`; `entropyAtLeast_iff` proves the two agree. -/
noncomputable def shannonEntropy (data charset : Str) : ℝ :=
  if (data.filter (fun c => charset.contains c)).length < 2 then 0
  else
    - ∑ c ∈ (data.filter (fun c => charset.contains c)).toFinset,
        (((data.filter (fun c => charset.contains c)).count c : ℝ)
            / (data.filter (fun c => charset.contains c)).length)
          * Real.logb 2
            (((data.filter (fun c => charset.contains c)).count c : ℝ)
              / (data.filter (fun c => charset.contains c)).length)

theorem count_cast_pos (f : Str) {c : Char} (hc : c ∈ f.toFinset) :
    (0 : ℝ) < (f.count c : ℝ) := by
  have := List.count_pos_iff.mpr (List.mem_toFinset.mp hc)
  exact_mod_cast this

theorem sum_count_cast (f : Str) :
    ∑ c ∈ f.toFinset, (f.count c : ℝ) = (f.length : ℝ) := by
  have := List.sum_toFinset_count_eq_length f
  exact_mod_cast congrArg (Nat.cast : ℕ → ℝ) this

theorem entropySum_eq (f : Str) (hf : 2 ≤ f.length) :
    - ∑ c ∈ f.toFinset,
        ((f.count c : ℝ) / f.length) * Real.logb 2 ((f.count c : ℝ) / f.length)
      = Real.logb 2 (f.length : ℝ)
        - (1 / (f.length : ℝ)) * ∑ c ∈ f.toFinset,
            (f.count c : ℝ) * Real.logb 2 (f.count c : ℝ) := by
  have hL0 : (0 : ℝ) < (f.length : ℝ) := by
    have : 0 < f.length := by omega
    exact_mod_cast this
  have step : ∀ c ∈ f.toFinset,
      ((f.count c : ℝ) / f.length) * Real.logb 2 ((f.count c : ℝ) / f.length)
        = (f.count c : ℝ) / f.length * Real.logb 2 (f.count c : ℝ)
          - (f.count c : ℝ) / f.length * Real.logb 2 (f.length : ℝ) := by
    intro c hc
    rw [Real.logb_div (ne_of_gt (count_cast_pos f hc)) (ne_of_gt hL0), mul_sub]
  rw [Finset.sum_congr rfl step, Finset.sum_sub_distrib]
  have e1 : ∑ c ∈ f.toFinset, (f.count c : ℝ) / f.length * Real.logb 2 (f.length : ℝ)
      = Real.logb 2 (f.length : ℝ) := by
    rw [← Finset.sum_mul, ← Finset.sum_div, sum_count_cast, div_self (ne_of_gt hL0),
      one_mul]
  have e2 : ∑ c ∈ f.toFinset, (f.count c : ℝ) / f.length * Real.logb 2 (f.count c : ℝ)
      = (1 / (f.length : ℝ)) * ∑ c ∈ f.toFinset,
          (f.count c : ℝ) * Real.logb 2 (f.count c : ℝ) := by
    rw [Finset.mul_sum]
    refine Finset.sum_congr rfl (fun c _ => ?_)
    ring
  rw [e1, e2]
  ring

theorem prodDedup (f : Str) (g : Char → Nat) :
    ((f.dedup.map g).prod) = ∏ c ∈ f.toFinset, g c := by
  have h1 : f.dedup.toFinset = f.toFinset := by
    ext c
    simp [List.mem_toFinset, List.mem_dedup]
  rw [← h1, List.prod_toFinset g (List.nodup_dedup f)]

theorem entropy_nat_iff (f : Str) (hf : 2 ≤ f.length) (p q : Nat)
    (_hp : 0 < p) (hq : 0 < q) :
    (2 ^ (p * f.length) * ((f.dedup.map (fun c => f.count c ^ (q * f.count c))).prod)
        ≤ f.length ^ (q * f.length))
      ↔ ((p : ℝ) / (q : ℝ)
          ≤ - ∑ c ∈ f.toFinset,
              ((f.count c : ℝ) / f.length)
                * Real.logb 2 ((f.count c : ℝ) / f.length)) := by
  have hL0 : (0 : ℝ) < (f.length : ℝ) := by
    have : 0 < f.length := by omega
    exact_mod_cast this
  have hq0 : (0 : ℝ) < (q : ℝ) := by exact_mod_cast hq
  have hprodpos : (0 : ℝ) < ∏ c ∈ f.toFinset, (f.count c : ℝ) ^ (q * f.count c) :=
    Finset.prod_pos (fun c hc => pow_pos (count_cast_pos f hc) _)
  rw [entropySum_eq f hf]
  -- p/q ≤ logb L - (1/L)·∑ n·logb n  ↔  p·L ≤ q·L·logb L - q·∑ n·logb n
  rw [div_le_iff₀ hq0, ← mul_le_mul_right hL0]
  have hrearr :
      (Real.logb 2 (f.length : ℝ)
          - 1 / (f.length : ℝ) * ∑ c ∈ f.toFinset,
              (f.count c : ℝ) * Real.logb 2 (f.count c : ℝ)) * (q : ℝ) * (f.length : ℝ)
        = (q : ℝ) * (f.length : ℝ) * Real.logb 2 (f.length : ℝ)
          - (q : ℝ) * ∑ c ∈ f.toFinset,
              (f.count c : ℝ) * Real.logb 2 (f.count c : ℝ) := by
    field_simp
    ring
  rw [hrearr]
  have hlhs : ((p : ℝ) * (f.length : ℝ)) = ((p * f.length : ℕ) : ℝ) := by push_cast; ring
  have hpowL : (q : ℝ) * (f.length : ℝ) * Real.logb 2 (f.length : ℝ)
      = Real.logb 2 ((f.length : ℝ) ^ (q * f.length)) := by
    rw [Real.logb_pow]
    push_cast
    ring
  have hpowS : (q : ℝ) * ∑ c ∈ f.toFinset, (f.count c : ℝ) * Real.logb 2 (f.count c : ℝ)
      = Real.logb 2 (∏ c ∈ f.toFinset, (f.count c : ℝ) ^ (q * f.count c)) := by
    rw [Real.logb_prod _ _ (fun c hc => ne_of_gt (pow_pos (count_cast_pos f hc) _)),
      Finset.mul_sum]
    refine Finset.sum_congr rfl (fun c hc => ?_)
    rw [Real.logb_pow]
    push_cast
    ring
  rw [hlhs, hpowL, hpowS,
    ← Real.logb_div (ne_of_gt (pow_pos hL0 _)) (ne_of_gt hprodpos),
    Real.le_logb_iff_rpow_le (by norm_num : (1 : ℝ) < 2)
      (div_pos (pow_pos hL0 _) hprodpos),
    Real.rpow_natCast, le_div_iff₀ hprodpos]
  rw [prodDedup]
  constructor
  · intro h
    calc (2 : ℝ) ^ (p * f.length) * ∏ c ∈ f.toFinset, (f.count c : ℝ) ^ (q * f.count c)
        = ((2 ^ (p * f.length) * ∏ c ∈ f.toFinset, f.count c ^ (q * f.count c) : ℕ) : ℝ) := by
          push_cast
          ring
      _ ≤ ((f.length ^ (q * f.length) : ℕ) : ℝ) := by exact_mod_cast h
      _ = (f.length : ℝ) ^ (q * f.length) := by push_cast; ring
  · intro h
    have hcast : ((2 ^ (p * f.length) * ∏ c ∈ f.toFinset, f.count c ^ (q * f.count c) : ℕ) : ℝ)
        ≤ ((f.length ^ (q * f.length) : ℕ) : ℝ) := by
      calc ((2 ^ (p * f.length) * ∏ c ∈ f.toFinset, f.count c ^ (q * f.count c) : ℕ) : ℝ)
          = (2 : ℝ) ^ (p * f.length) * ∏ c ∈ f.toFinset, (f.count c : ℝ) ^ (q * f.count c) := by
            push_cast
            ring
        _ ≤ (f.length : ℝ) ^ (q * f.length) := h
        _ = ((f.length ^ (q * f.length) : ℕ) : ℝ) := by push_cast; ring
    exact_mod_cast hcast

theorem entropyAtLeast_iff (data charset : Str) (p q : Nat)
    (hp : 0 < p) (hq : 0 < q) :
    entropyAtLeast data charset p q = true
      ↔ ((p : ℝ) / (q : ℝ) ≤ shannonEntropy data charset) := by
  have hpq0 : (0 : ℝ) < (p : ℝ) / (q : ℝ) :=
    div_pos (by exact_mod_cast hp) (by exact_mod_cast hq)
  by_cases hL : (data.filter (fun c => charset.contains c)).length < 2
  · simp only [entropyAtLeast, shannonEntropy, if_pos hL]
    constructor
    · intro h
      exact (Bool.false_ne_true h).elim
    · intro h
      exact absurd hpq0 (not_lt.mpr h)
  · have hf : 2 ≤ (data.filter (fun c => charset.contains c)).length :=
      le_of_not_lt hL
    simp only [entropyAtLeast, entropyCounts, shannonEntropy, if_neg hL,
      decide_eq_true_eq, List.map_map]
    exact entropy_nat_iff _ hf p q hp hq

/-- Jensen bound: the entropy sum is at most `log₂` of the number of
distinct characters. -/
theorem entropySum_le_logb_card (f : Str) (hf : 2 ≤ f.length) :
    - ∑ c ∈ f.toFinset,
        ((f.count c : ℝ) / f.length) * Real.logb 2 ((f.count c : ℝ) / f.length)
      ≤ Real.logb 2 (f.toFinset.card : ℝ) := by
  have hL0 : (0 : ℝ) < (f.length : ℝ) := by
    have : 0 < f.length := by omega
    exact_mod_cast this
  have hlog2 : (0 : ℝ) < Real.log 2 := Real.log_pos (by norm_num)
  have hw0 : ∀ c ∈ f.toFinset, (0 : ℝ) ≤ (f.count c : ℝ) / f.length :=
    fun c hc => le_of_lt (div_pos (count_cast_pos f hc) hL0)
  have hw1 : ∑ c ∈ f.toFinset, (f.count c : ℝ) / f.length = 1 := by
    rw [← Finset.sum_div, sum_count_cast, div_self (ne_of_gt hL0)]
  have hmem : ∀ c ∈ f.toFinset,
      (f.length : ℝ) / (f.count c : ℝ) ∈ Set.Ioi (0 : ℝ) :=
    fun c hc => div_pos hL0 (count_cast_pos f hc)
  have hjensen := (strictConcaveOn_log_Ioi.concaveOn).le_map_sum hw0 hw1 hmem
  have hpoint : ∑ c ∈ f.toFinset,
      ((f.count c : ℝ) / f.length) • ((f.length : ℝ) / (f.count c : ℝ))
        = (f.toFinset.card : ℝ) := by
    rw [show ((f.toFinset.card : ℝ)) = ∑ _c ∈ f.toFinset, (1 : ℝ) by
      rw [Finset.sum_const, nsmul_eq_mul, mul_one]]
    refine Finset.sum_congr rfl (fun c hc => ?_)
    have hn0 : (f.count c : ℝ) ≠ 0 := ne_of_gt (count_cast_pos f hc)
    have hl0 : (f.length : ℝ) ≠ 0 := ne_of_gt hL0
    rw [smul_eq_mul]
    field_simp
  have hterm : ∀ c ∈ f.toFinset,
      -(((f.count c : ℝ) / f.length) * Real.logb 2 ((f.count c : ℝ) / f.length))
        = ((f.count c : ℝ) / f.length)
            * (Real.log ((f.length : ℝ) / (f.count c : ℝ)) / Real.log 2) := by
    intro c hc
    have h1 : ((f.count c : ℝ) / f.length) = ((f.length : ℝ) / (f.count c : ℝ))⁻¹ := by
      rw [inv_div]
    rw [Real.logb, h1, Real.log_inv]
    ring
  calc - ∑ c ∈ f.toFinset,
          ((f.count c : ℝ) / f.length) * Real.logb 2 ((f.count c : ℝ) / f.length)
      = ∑ c ∈ f.toFinset,
          ((f.count c : ℝ) / f.length)
            * (Real.log ((f.length : ℝ) / (f.count c : ℝ)) / Real.log 2) := by
        rw [← Finset.sum_neg_distrib]
        exact Finset.sum_congr rfl hterm
    _ = (∑ c ∈ f.toFinset,
          ((f.count c : ℝ) / f.length)
            • Real.log ((f.length : ℝ) / (f.count c : ℝ))) / Real.log 2 := by
        rw [Finset.sum_div]
        refine Finset.sum_congr rfl (fun c _ => ?_)
        rw [smul_eq_mul]
        ring
    _ ≤ Real.log (∑ c ∈ f.toFinset,
          ((f.count c : ℝ) / f.length) • ((f.length : ℝ) / (f.count c : ℝ)))
          / Real.log 2 := by
        exact div_le_div_of_nonneg_right hjensen (le_of_lt hlog2)
    _ = Real.logb 2 (f.toFinset.card : ℝ) := by
        rw [hpoint, Real.logb]

/-- The hex alphabet has only 22 characters, so the hex-restricted
entropy is bounded by `log₂ 22 < 4.5`. -/
theorem shannonEntropy_hex_lt (data : Str) :
    shannonEntropy data hexChars < 9 / 2 := by
  unfold shannonEntropy
  by_cases hL : (data.filter (fun c => hexChars.contains c)).length < 2
  · rw [if_pos hL]
    norm_num
  · rw [if_neg hL]
    have hf : 2 ≤ (data.filter (fun c => hexChars.contains c)).length :=
      le_of_not_lt hL
    have hb2 : (1 : ℝ) < 2 := by norm_num
    have hsub : (data.filter (fun c => hexChars.contains c)).toFinset
        ⊆ hexChars.toFinset := by
      intro c hc
      have hmem := List.mem_toFinset.mp hc
      have hcc := List.of_mem_filter hmem
      refine List.mem_toFinset.mpr ?_
      have hh := List.contains_iff_exists_mem_beq.mp hcc
      obtain ⟨c', hc', hbeq⟩ := hh
      rwa [show c = c' from beq_iff_eq.mp hbeq]
    have hcard : (data.filter (fun c => hexChars.contains c)).toFinset.card ≤ 22 := by
      have h22 : hexChars.toFinset.card = 22 := by decide
      exact h22 ▸ Finset.card_le_card hsub
    have hcpos : 0 < (data.filter (fun c => hexChars.contains c)).toFinset.card := by
      rw [Finset.card_pos]
      cases hfl : data.filter (fun c => hexChars.contains c) with
      | nil => rw [hfl] at hf; simp at hf
      | cons a l => exact ⟨a, by simp⟩
    calc - ∑ c ∈ (data.filter (fun c => hexChars.contains c)).toFinset,
            (((data.filter (fun c => hexChars.contains c)).count c : ℝ)
                / (data.filter (fun c => hexChars.contains c)).length)
              * Real.logb 2
                (((data.filter (fun c => hexChars.contains c)).count c : ℝ)
                  / (data.filter (fun c => hexChars.contains c)).length)
        ≤ Real.logb 2
            ((data.filter (fun c => hexChars.contains c)).toFinset.card : ℝ) :=
          entropySum_le_logb_card _ hf
      _ ≤ Real.logb 2 (22 : ℝ) := by
          apply Real.logb_le_logb_of_le hb2 (by exact_mod_cast hcpos)
          exact_mod_cast hcard
      _ < 9 / 2 := by
          rw [Real.logb_lt_iff_lt_rpow hb2 (by norm_num)]
          have hsq : ((2 : ℝ) ^ ((9 : ℝ) / 2)) ^ (2 : ℕ) = 512 := by
            rw [← Real.rpow_natCast ((2 : ℝ) ^ ((9 : ℝ) / 2)) 2,
              ← Real.rpow_mul (by norm_num : (0 : ℝ) ≤ 2)]
            have h92 : (9 : ℝ) / 2 * ((2 : ℕ) : ℝ) = ((9 : ℕ) : ℝ) := by
              push_cast
              ring
            rw [h92, Real.rpow_natCast]
            norm_num
          have hpos : (0 : ℝ) < (2 : ℝ) ^ ((9 : ℝ) / 2) :=
            Real.rpow_pos_of_pos (by norm_num) _
          nlinarith [hsq, hpos]

theorem getOrCreate_mapping_other (r : Redactor) (v c k : Str) (hk : k ≠ v) :
    dictGet (getOrCreatePlaceholder r v c).2.mapping k = dictGet r.mapping k := by
  unfold getOrCreatePlaceholder
  cases hv : dictGet r.mapping v with
  | some q => rfl
  | none =>
    dsimp only
    rw [dictGet_insert_absent _ _ _ hv, if_neg hk]

/-- Membership characterization of the entropy detector: a token is
flagged exactly when it occurs in the token list and satisfies the six
skip/flag conditions with respect to the initial state. -/
theorem detectHE_mem_iff (already : List Str) (toks : List Str) (r : Redactor)
    (tok : Str) :
    (∃ p, (⟨tok, p, S "high_entropy", true⟩ : Redaction)
        ∈ (detectHighEntropyTokens r already toks).1)
      ↔ tok ∈ toks ∧ 16 ≤ tok.length ∧ dictGet r.mapping tok = none
          ∧ already.contains tok = false ∧ isAlphaTok tok = false
          ∧ hasUrlOrPathPrefix tok = false
          ∧ (entropyAtLeast tok hexChars 9 2 = true
              ∨ entropyAtLeast tok base64Chars 4 1 = true) := by
  induction toks generalizing r with
  | nil =>
    simp [detectHighEntropyTokens]
  | cons t toks ih =>
    unfold detectHighEntropyTokens
    by_cases h1 : t.length < 16
    · rw [if_pos h1, ih]
      constructor
      · rintro ⟨htm, rest⟩
        exact ⟨List.mem_cons_of_mem _ htm, rest⟩
      · rintro ⟨htm, rest⟩
        rcases List.mem_cons.mp htm with heq | hmem
        · subst heq
          exact absurd rest.1 (by omega)
        · exact ⟨hmem, rest⟩
    · rw [if_neg h1]
      by_cases h2 : ((dictGet r.mapping t).isSome || already.contains t) = true
      · rw [if_pos h2, ih]
        simp only [Bool.or_eq_true] at h2
        constructor
        · rintro ⟨htm, rest⟩
          exact ⟨List.mem_cons_of_mem _ htm, rest⟩
        · rintro ⟨htm, rest⟩
          rcases List.mem_cons.mp htm with heq | hmem
          · subst heq
            rcases h2 with hs | hc
            · rw [rest.2.1] at hs
              exact Bool.noConfusion hs
            · rw [rest.2.2.1] at hc
              exact Bool.noConfusion hc
          · exact ⟨hmem, rest⟩
      · rw [if_neg h2]
        obtain ⟨hmap, hcon⟩ : dictGet r.mapping t = none
            ∧ already.contains t = false := by
          constructor
          · cases hm : dictGet r.mapping t with
            | none => rfl
            | some pp => exact absurd (by rw [hm]; simp) h2
          · cases hc : already.contains t with
            | false => rfl
            | true => exact absurd (by rw [hc]; simp) h2
        by_cases h3 : isAlphaTok t = true
        · rw [if_pos h3, ih]
          constructor
          · rintro ⟨htm, rest⟩
            exact ⟨List.mem_cons_of_mem _ htm, rest⟩
          · rintro ⟨htm, rest⟩
            rcases List.mem_cons.mp htm with heq | hmem
            · subst heq
              rw [rest.2.2.2.1] at h3
              exact Bool.noConfusion h3
            · exact ⟨hmem, rest⟩
        · rw [if_neg h3]
          by_cases h4 : hasUrlOrPathPrefix t = true
          · rw [if_pos h4, ih]
            constructor
            · rintro ⟨htm, rest⟩
              exact ⟨List.mem_cons_of_mem _ htm, rest⟩
            · rintro ⟨htm, rest⟩
              rcases List.mem_cons.mp htm with heq | hmem
              · subst heq
                rw [rest.2.2.2.2.1] at h4
                exact Bool.noConfusion h4
              · exact ⟨hmem, rest⟩
          · rw [if_neg h4]
            have h3f : isAlphaTok t = false := by
              revert h3
              cases isAlphaTok t <;> simp
            have h4f : hasUrlOrPathPrefix t = false := by
              revert h4
              cases hasUrlOrPathPrefix t <;> simp
            by_cases h5 : (entropyAtLeast t hexChars 9 2
                || entropyAtLeast t base64Chars 4 1) = true
            · rw [if_pos h5]
              simp only [List.mem_cons]
              constructor
              · rintro ⟨p, hp | hp⟩
                · have heq : tok = t ∧ p = (getOrCreatePlaceholder r t
                      (S "high_entropy")).1 := by
                    injection hp with e1 e2 e3 e4
                    exact ⟨e1, e2⟩
                  obtain ⟨rfl, -⟩ := heq
                  exact ⟨Or.inl rfl, by omega, hmap, hcon, h3f, h4f,
                    Bool.or_eq_true_iff.mp h5⟩
                · have hrest := (ih (getOrCreatePlaceholder r t
                      (S "high_entropy")).2 ).mp ⟨p, hp⟩
                  obtain ⟨hm, hlen, hmap', hrest'⟩ := hrest
                  have hne : tok ≠ t := by
                    intro hh
                    rw [hh, getOrCreate_lookup] at hmap'
                    exact Option.noConfusion hmap'
                  rw [getOrCreate_mapping_other r t _ tok hne] at hmap'
                  exact ⟨Or.inr hm, hlen, hmap', hrest'⟩
              · rintro ⟨htm, hlen, hmapt, hcont, halpha, hpre, hent⟩
                rcases htm with heq | hmem
                · subst heq
                  exact ⟨(getOrCreatePlaceholder r tok (S "high_entropy")).1,
                    Or.inl rfl⟩
                · by_cases hne : tok = t
                  · subst hne
                    exact ⟨(getOrCreatePlaceholder r tok (S "high_entropy")).1,
                      Or.inl rfl⟩
                  · have hmap' : dictGet (getOrCreatePlaceholder r t
                        (S "high_entropy")).2.mapping tok = none := by
                      rw [getOrCreate_mapping_other r t _ tok hne]
                      exact hmapt
                    obtain ⟨p, hp⟩ := (ih (getOrCreatePlaceholder r t
                        (S "high_entropy")).2).mpr
                      ⟨hmem, hlen, hmap', hcont, halpha, hpre, hent⟩
                    exact ⟨p, Or.inr hp⟩
            · rw [if_neg h5, ih]
              constructor
              · rintro ⟨htm, rest⟩
                exact ⟨List.mem_cons_of_mem _ htm, rest⟩
              · rintro ⟨htm, rest⟩
                rcases List.mem_cons.mp htm with heq | hmem
                · subst heq
                  rcases rest.2.2.2.2.2 with hh | hh
                  · exact absurd (Bool.or_eq_true_iff.mpr (Or.inl hh)) h5
                  · exact absurd (Bool.or_eq_true_iff.mpr (Or.inr hh)) h5
                · exact ⟨hmem, rest⟩

/-- C8: a whitespace/punctuation-delimited token of the text is flagged
as `high_entropy` by `_detect_high_entropy_tokens` if and only if its
length is at least 16, it is not already in the Mapping Store and not
among the originals already redacted in the same call, it is not purely
alphabetic, it does not start with a URL or path prefix, and its
Shannon entropy restricted to the hexadecimal alphabet is at least 4.5
bits/char or restricted to the base64 alphabet is at least 4.0
bits/char. -/
theorem entropy_flagging (r : Redactor) (already : List Str) (text : Str)
    (tok : Str) :
    (∃ p, (⟨tok, p, S "high_entropy", true⟩ : Redaction)
        ∈ (detectHighEntropyTokens r already (tokenize text)).1)
      ↔ tok ∈ tokenize text ∧ 16 ≤ tok.length
          ∧ dictGet r.mapping tok = none ∧ already.contains tok = false
          ∧ isAlphaTok tok = false ∧ hasUrlOrPathPrefix tok = false
          ∧ ((9 : ℝ) / 2 ≤ shannonEntropy tok hexChars
              ∨ (4 : ℝ) ≤ shannonEntropy tok base64Chars) := by
  rw [detectHE_mem_iff]
  have h1 := entropyAtLeast_iff tok hexChars 9 2 (by norm_num) (by norm_num)
  have h2 := entropyAtLeast_iff tok base64Chars 4 1 (by norm_num) (by norm_num)
  have hc1 : ((9 : ℕ) : ℝ) / ((2 : ℕ) : ℝ) = (9 : ℝ) / 2 := by norm_num
  have hc2 : ((4 : ℕ) : ℝ) / ((1 : ℕ) : ℝ) = (4 : ℝ) := by norm_num
  rw [hc1] at h1
  rw [hc2] at h2
  constructor
  · rintro ⟨a, b, c, d, e, f, g⟩
    refine ⟨a, b, c, d, e, f, ?_⟩
    rcases g with g | g
    · exact Or.inl (h1.mp g)
    · exact Or.inr (h2.mp g)
  · rintro ⟨a, b, c, d, e, f, g⟩
    refine ⟨a, b, c, d, e, f, ?_⟩
    rcases g with g | g
    · exact Or.inl (h1.mpr g)
    · exact Or.inr (h2.mpr g)

/-- C10: the hex disjunct of the entropy test is dead.  The Shannon
entropy of any string restricted to the 22-character hexadecimal
alphabet is below 4.5 bits/char (it is at most `log₂ 22`), so the
detector flags a token exactly when the length/shape preconditions hold
together with base64-restricted entropy of at least 4.0 bits/char. -/
theorem hex_threshold_dead :
    (∀ data : Str, shannonEntropy data hexChars < 9 / 2)
    ∧ (∀ (r : Redactor) (already toks : List Str) (tok : Str),
        (∃ p, (⟨tok, p, S "high_entropy", true⟩ : Redaction)
            ∈ (detectHighEntropyTokens r already toks).1)
          ↔ tok ∈ toks ∧ 16 ≤ tok.length ∧ dictGet r.mapping tok = none
              ∧ already.contains tok = false ∧ isAlphaTok tok = false
              ∧ hasUrlOrPathPrefix tok = false
              ∧ (4 : ℝ) ≤ shannonEntropy tok base64Chars) := by
  refine ⟨shannonEntropy_hex_lt, fun r already toks tok => ?_⟩
  rw [detectHE_mem_iff]
  have h1 := entropyAtLeast_iff tok hexChars 9 2 (by norm_num) (by norm_num)
  have h2 := entropyAtLeast_iff tok base64Chars 4 1 (by norm_num) (by norm_num)
  have hc1 : ((9 : ℕ) : ℝ) / ((2 : ℕ) : ℝ) = (9 : ℝ) / 2 := by norm_num
  have hc2 : ((4 : ℕ) : ℝ) / ((1 : ℕ) : ℝ) = (4 : ℝ) := by norm_num
  rw [hc1] at h1
  rw [hc2] at h2
  have hhexdead : ¬ entropyAtLeast tok hexChars 9 2 = true := by
    intro h
    exact absurd (h1.mp h) (not_le.mpr (shannonEntropy_hex_lt tok))
  constructor
  · rintro ⟨a, b, c, d, e, f, g⟩
    refine ⟨a, b, c, d, e, f, ?_⟩
    rcases g with g | g
    · exact absurd g hhexdead
    · exact h2.mp g
  · rintro ⟨a, b, c, d, e, f, g⟩
    exact ⟨a, b, c, d, e, f, Or.inr (h2.mpr g)⟩

/-! ### Positional analysis of `str.replace`: distribution over
designated occurrences, used for the round-trip and no-fragmentation
claims. -/

theorem occursIn_iff_infix (pat s : Str) : OccursIn pat s ↔ pat <:+: s := by
  constructor
  · rintro ⟨a, b, rfl⟩
    exact ⟨a, b, rfl⟩
  · rintro ⟨a, b, rfl⟩
    exact ⟨a, b, rfl⟩

theorem occursIn_iff_drop (pat s : Str) :
    OccursIn pat s ↔ ∃ k, k + pat.length ≤ s.length
      ∧ pat.isPrefixOf (s.drop k) = true := by
  constructor
  · rintro ⟨a, b, rfl⟩
    refine ⟨a.length, by simp, ?_⟩
    rw [List.append_assoc, List.drop_left, List.isPrefixOf_iff_prefix]
    exact List.prefix_append pat b
  · rintro ⟨k, hk, hpre⟩
    rw [List.isPrefixOf_iff_prefix] at hpre
    obtain ⟨t, ht⟩ := hpre
    exact ⟨s.take k, t, by rw [List.append_assoc, ht, List.take_append_drop]⟩

theorem replaceAll_ne (pat rep s : Str) (hp : pat ≠ []) :
    replaceAll pat rep s = replaceAllAux pat rep s := by
  rw [replaceAll, if_neg hp]

theorem replaceAllAux_nil (pat rep : Str) : replaceAllAux pat rep [] = [] := rfl

theorem replaceAll_of_not_occurs (pat rep s : Str) (hp : pat ≠ [])
    (h : ¬ OccursIn pat s) : replaceAll pat rep s = s := by
  rw [replaceAll_ne _ _ _ hp]
  induction s with
  | nil => rfl
  | cons c rest ih =>
    have heq : replaceAllAux pat rep (c :: rest)
        = if pat ≠ [] ∧ pat.isPrefixOf (c :: rest) = true then
            rep ++ replaceAllAux pat rep (rest.drop (pat.length - 1))
          else c :: replaceAllAux pat rep rest :=
      replaceAllAux_eq pat rep (c :: rest)
    have hnpre : ¬ (pat ≠ [] ∧ pat.isPrefixOf (c :: rest) = true) := by
      rintro ⟨-, hpre⟩
      rw [List.isPrefixOf_iff_prefix] at hpre
      obtain ⟨t, ht⟩ := hpre
      exact h ⟨[], t, by rw [← ht]; rfl⟩
    rw [heq, if_neg hnpre]
    have hrest : ¬ OccursIn pat rest := by
      rintro ⟨a, b, rfl⟩
      exact h ⟨c :: a, b, rfl⟩
    rw [ih hrest]

theorem replaceAll_self (pat rep : Str) (hp : pat ≠ []) :
    replaceAll pat rep pat = rep := by
  rw [replaceAll_ne _ _ _ hp]
  cases hpat : pat with
  | nil => exact absurd hpat hp
  | cons c t =>
    have heq : replaceAllAux (c :: t) rep (c :: t)
        = if (c :: t) ≠ [] ∧ (c :: t).isPrefixOf (c :: t) = true then
            rep ++ replaceAllAux (c :: t) rep (t.drop ((c :: t).length - 1))
          else c :: replaceAllAux (c :: t) rep t :=
      replaceAllAux_eq (c :: t) rep (c :: t)
    rw [heq, if_pos ⟨by simp, by simp [List.isPrefixOf_iff_prefix]⟩]
    have hd : t.drop ((c :: t).length - 1) = [] := by simp
    rw [hd, replaceAllAux_nil]
    exact List.append_nil rep

/-- `str.replace` distributes over an append when no occurrence of the
pattern starting in the left part extends past it. -/
theorem replaceAll_append (pat rep : Str) (hp : pat ≠ []) :
    ∀ (X Y : Str),
      (∀ k, k < X.length → pat.isPrefixOf ((X ++ Y).drop k) = true →
        k + pat.length ≤ X.length) →
      replaceAll pat rep (X ++ Y)
        = replaceAll pat rep X ++ replaceAll pat rep Y := by
  have main : ∀ (n : Nat) (X Y : Str), X.length ≤ n →
      (∀ k, k < X.length → pat.isPrefixOf ((X ++ Y).drop k) = true →
        k + pat.length ≤ X.length) →
      replaceAll pat rep (X ++ Y)
        = replaceAll pat rep X ++ replaceAll pat rep Y := by
    intro n
    induction n with
    | zero =>
      intro X Y hlen _
      have : X = [] := List.length_eq_zero.mp (Nat.le_zero.mp hlen)
      subst this
      rw [List.nil_append, replaceAll_ne pat rep [] hp, replaceAllAux_nil,
        List.nil_append]
    | succ n ih =>
      intro X Y hlen hcond
      cases X with
      | nil =>
        rw [List.nil_append, replaceAll_ne pat rep [] hp, replaceAllAux_nil,
          List.nil_append]
      | cons c X' =>
        rw [replaceAll_ne _ _ _ hp, replaceAll_ne _ _ (c :: X') hp,
          replaceAll_ne _ _ Y hp]
        rw [show ((c :: X') ++ Y) = c :: (X' ++ Y) from rfl]
        have heq1 : replaceAllAux pat rep (c :: (X' ++ Y))
            = if pat ≠ [] ∧ pat.isPrefixOf (c :: (X' ++ Y)) = true then
                rep ++ replaceAllAux pat rep ((X' ++ Y).drop (pat.length - 1))
              else c :: replaceAllAux pat rep (X' ++ Y) :=
          replaceAllAux_eq pat rep (c :: (X' ++ Y))
        have heq2 : replaceAllAux pat rep (c :: X')
            = if pat ≠ [] ∧ pat.isPrefixOf (c :: X') = true then
                rep ++ replaceAllAux pat rep (X'.drop (pat.length - 1))
              else c :: replaceAllAux pat rep X' :=
          replaceAllAux_eq pat rep (c :: X')
        rw [heq1, heq2]
        by_cases hif : pat.isPrefixOf (c :: (X' ++ Y)) = true
        · have hk0 : pat.length ≤ X'.length + 1 := by
            have := hcond 0 (by simp) (by simpa using hif)
            simpa using this
          have hpreX : pat.isPrefixOf (c :: X') = true := by
            rw [List.isPrefixOf_iff_prefix]
            refine List.prefix_of_prefix_length_le
              (List.isPrefixOf_iff_prefix.mp hif)
              (by
                have hax : (c :: X') <+: (c :: X') ++ Y := List.prefix_append _ _
                simp only [List.cons_append] at hax
                exact hax)
              (by simpa using hk0)
          rw [if_pos ⟨hp, hif⟩, if_pos ⟨hp, hpreX⟩]
          have hdle : pat.length - 1 ≤ X'.length := by omega
          have hsplit : (X' ++ Y).drop (pat.length - 1)
              = X'.drop (pat.length - 1) ++ Y :=
            List.drop_append_of_le_length hdle
          rw [hsplit]
          have hlen' : (X'.drop (pat.length - 1)).length ≤ n := by
            simp only [List.length_drop]
            simp only [List.length_cons] at hlen
            omega
          have hcond' : ∀ k, k < (X'.drop (pat.length - 1)).length →
              pat.isPrefixOf ((X'.drop (pat.length - 1) ++ Y).drop k) = true →
              k + pat.length ≤ (X'.drop (pat.length - 1)).length := by
            intro k hk hpre
            have hdd : (X'.drop (pat.length - 1) ++ Y).drop k
                = ((c :: X') ++ Y).drop (pat.length + k) := by
              rw [← hsplit, List.drop_drop]
              have hpl : 0 < pat.length :=
                List.length_pos.mpr hp
              have : pat.length - 1 + k + 1 = pat.length + k := by omega
              rw [show ((c :: X') ++ Y) = c :: (X' ++ Y) from rfl]
              rw [show pat.length + k = (pat.length - 1 + k) + 1 by omega]
              rw [List.drop_succ_cons]
            rw [hdd] at hpre
            simp only [List.length_drop] at hk ⊢
            have hklt : pat.length + k < (c :: X').length := by
              simp only [List.length_cons]
              omega
            have := hcond (pat.length + k) hklt hpre
            simp only [List.length_cons] at this
            omega
          have hrec := ih (X'.drop (pat.length - 1)) Y hlen' hcond'
          rw [replaceAll_ne _ _ _ hp, replaceAll_ne _ _ _ hp,
            replaceAll_ne _ _ Y hp] at hrec
          rw [hrec, List.append_assoc]
        · have hifX : ¬ pat.isPrefixOf (c :: X') = true := by
            intro hpre
            apply hif
            rw [List.isPrefixOf_iff_prefix] at hpre ⊢
            obtain ⟨t, ht⟩ := hpre
            exact ⟨t ++ Y, by rw [← List.append_assoc, ht]; rfl⟩
          rw [if_neg (fun hh => hif hh.2), if_neg (fun hh => hifX hh.2)]
          have hlen' : X'.length ≤ n := by
            simp only [List.length_cons] at hlen
            omega
          have hcond' : ∀ k, k < X'.length →
              pat.isPrefixOf ((X' ++ Y).drop k) = true →
              k + pat.length ≤ X'.length := by
            intro k hk hpre
            have : (X' ++ Y).drop k = ((c :: X') ++ Y).drop (k + 1) := rfl
            rw [this] at hpre
            have := hcond (k + 1) (by simp; omega) hpre
            simp only [List.length_cons] at this
            omega
          have hrec := ih X' Y hlen' hcond'
          rw [replaceAll_ne _ _ _ hp, replaceAll_ne _ _ _ hp,
            replaceAll_ne _ _ Y hp] at hrec
          rw [hrec]
          rfl
  intro X Y hcond
  exact main X.length X Y (le_refl _) hcond

/-- The opening bracket character of minted placeholders (code 91). -/
def lbr : Char := Char.ofNat 91

/-- The closing bracket character of minted placeholders (code 93). -/
def rbr : Char := Char.ofNat 93

/-- A string containing neither bracket character. -/
def bracketFree (s : Str) : Prop := ∀ c ∈ s, c ≠ lbr ∧ c ≠ rbr

instance (s : Str) : Decidable (bracketFree s) :=
  inferInstanceAs (Decidable (∀ c ∈ s, c ≠ lbr ∧ c ≠ rbr))

/-- The shape of every minted placeholder: an opening bracket, a
bracket-free core, a closing bracket. -/
def BracketShaped (p : Str) : Prop :=
  ∃ core, p = lbr :: core ++ [rbr] ∧ bracketFree core

theorem lbr_ne_rbr : lbr ≠ rbr := by decide

theorem bs_ne_nil {p : Str} (hp : BracketShaped p) : p ≠ [] := by
  obtain ⟨core, rfl, -⟩ := hp
  simp

theorem bs_two_le {p : Str} (hp : BracketShaped p) : 2 ≤ p.length := by
  obtain ⟨core, rfl, -⟩ := hp
  simp only [List.length_cons, List.length_append, List.length_singleton, List.length_nil]
  omega

theorem bs_head {p : Str} (hp : BracketShaped p) : p.head? = some lbr := by
  obtain ⟨core, rfl, -⟩ := hp
  rfl

theorem drop_ne_nil_of_lt {α : Type} {l : List α} {k : Nat} (h : k < l.length) :
    l.drop k ≠ [] := by
  intro hd
  have := List.length_drop k l
  rw [hd] at this
  simp at this
  omega

theorem head?_eq_of_ne_nil {α : Type} (A B : List α) (h : A ≠ []) :
    (A ++ B).head? = A.head? := by
  cases A with
  | nil => exact absurd rfl h
  | cons c t => rfl

theorem isPrefix_head? {pat Z : Str} (h : pat <+: Z) (hne : pat ≠ []) :
    pat.head? = Z.head? := by
  obtain ⟨t, rfl⟩ := h
  exact (head?_eq_of_ne_nil pat t hne).symm

theorem prefix_overlap {pat A B : Str} (h : pat <+: A ++ B)
    (hlen : A.length < pat.length) :
    ∃ r, pat = A ++ r ∧ r <+: B ∧ r ≠ [] := by
  have hA : A <+: pat :=
    List.prefix_of_prefix_length_le (List.prefix_append A B) h (le_of_lt hlen)
  obtain ⟨r, hr⟩ := hA
  refine ⟨r, hr.symm, ?_, ?_⟩
  · obtain ⟨t, ht⟩ := h
    rw [← hr, List.append_assoc] at ht
    have hB : B = r ++ t := (List.append_cancel_left ht).symm
    exact ⟨t, hB.symm⟩
  · intro hrnil
    rw [hrnil, List.append_nil] at hr
    rw [hr] at hlen
    exact lt_irrefl _ hlen

theorem bs_drop_last {p : Str} (hp : BracketShaped p) :
    p.drop (p.length - 1) = [rbr] := by
  obtain ⟨core, rfl, -⟩ := hp
  have h1 : (lbr :: core ++ [rbr]) = (lbr :: core) ++ [rbr] := by simp
  have h2 : (lbr :: core ++ [rbr]).length - 1 = (lbr :: core).length := by
    simp
  rw [h2, h1, List.drop_left]

theorem bs_drop_head_ne_lbr {p : Str} (hp : BracketShaped p) {k : Nat}
    (h1 : 1 ≤ k) (h2 : k < p.length) {c : Char}
    (hc : (p.drop k).head? = some c) : c ≠ lbr := by
  obtain ⟨core, rfl, hfree⟩ := hp
  have hk : (lbr :: core ++ [rbr]).drop k = (core ++ [rbr]).drop (k - 1) := by
    rw [show k = (k - 1) + 1 by omega]
    rfl
  rw [hk] at hc
  by_cases hcore : k - 1 < core.length
  · rw [List.drop_append_of_le_length (le_of_lt hcore)] at hc
    rw [head?_eq_of_ne_nil _ _ (drop_ne_nil_of_lt hcore)] at hc
    cases hcd : core.drop (k - 1) with
    | nil => exact absurd hcd (drop_ne_nil_of_lt hcore)
    | cons d t =>
      rw [hcd] at hc
      have hd : d ∈ core := List.mem_of_mem_drop (hcd ▸ List.mem_cons_self d t)
      have := (hfree d hd).1
      simp only [List.head?_cons, Option.some.injEq] at hc
      rw [← hc]
      exact this
  · have hke : k - 1 = core.length := by
      simp only [List.length_cons, List.length_append, List.length_singleton, List.length_nil] at h2
      omega
    rw [hke, List.drop_left' rfl] at hc
    simp only [List.head?_cons, Option.some.injEq] at hc
    rw [← hc]
    exact (Ne.symm lbr_ne_rbr)

theorem bs_drop_head_ne_rbr {p : Str} (hp : BracketShaped p) {k : Nat}
    (h1 : 1 ≤ k) (h2 : k + 1 < p.length) {c : Char}
    (hc : (p.drop k).head? = some c) : c ≠ rbr := by
  obtain ⟨core, rfl, hfree⟩ := hp
  have hk : (lbr :: core ++ [rbr]).drop k = (core ++ [rbr]).drop (k - 1) := by
    rw [show k = (k - 1) + 1 by omega]
    rfl
  rw [hk] at hc
  have hcore : k - 1 < core.length := by
    simp only [List.length_cons, List.length_append, List.length_singleton, List.length_nil] at h2
    omega
  rw [List.drop_append_of_le_length (le_of_lt hcore)] at hc
  rw [head?_eq_of_ne_nil _ _ (drop_ne_nil_of_lt hcore)] at hc
  cases hcd : core.drop (k - 1) with
  | nil => exact absurd hcd (drop_ne_nil_of_lt hcore)
  | cons d t =>
    rw [hcd] at hc
    have hd : d ∈ core := List.mem_of_mem_drop (hcd ▸ List.mem_cons_self d t)
    have := (hfree d hd).2
    simp only [List.head?_cons, Option.some.injEq] at hc
    rw [← hc]
    exact this

theorem bs_rbr_mem_drop {p : Str} (hp : BracketShaped p) {k : Nat}
    (h2 : k < p.length) : rbr ∈ p.drop k := by
  obtain ⟨core, rfl, -⟩ := hp
  have h1 : (lbr :: core ++ [rbr]) = (lbr :: core) ++ [rbr] := by simp
  have hk : k ≤ (lbr :: core).length := by
    simp only [List.length_cons, List.length_append, List.length_singleton, List.length_nil] at h2
    simp only [List.length_cons]
    omega
  rw [h1, List.drop_append_of_le_length hk]
  exact List.mem_append_right _ (List.mem_singleton.mpr rfl)

theorem occursIn_append_right (pat X Y : Str) :
    OccursIn pat X → OccursIn pat (X ++ Y) := by
  rintro ⟨a, b, rfl⟩
  exact ⟨a, b ++ Y, by simp⟩

theorem occursIn_append_left (pat X Y : Str) :
    OccursIn pat Y → OccursIn pat (X ++ Y) := by
  rintro ⟨a, b, rfl⟩
  exact ⟨X ++ a, b, by simp⟩

/-- A pattern free of the opening bracket cannot start in `X` and cross
into a `Y` that starts with the opening bracket. -/
theorem no_cross_headY (pat X Y : Str) (hpat : ∀ c ∈ pat, c ≠ lbr)
    (hY : Y.head? = some lbr) :
    ∀ k, k < X.length → X.length < k + pat.length →
      ¬ pat.isPrefixOf ((X ++ Y).drop k) = true := by
  intro k hk hgt hpre
  rw [List.isPrefixOf_iff_prefix, List.drop_append_of_le_length (le_of_lt hk)]
    at hpre
  obtain ⟨r, hr, hrB, hrne⟩ := prefix_overlap hpre (by rw [List.length_drop]; omega)
  have h1 : r.head? = Y.head? := isPrefix_head? hrB hrne
  rw [hY] at h1
  have hl : lbr ∈ r := by
    cases r with
    | nil => exact absurd rfl hrne
    | cons d t =>
      simp only [List.head?_cons, Option.some.injEq] at h1
      rw [← h1]
      exact List.mem_cons_self d t
  have hmem : lbr ∈ pat := by
    rw [hr]
    exact List.mem_append_right _ hl
  exact (hpat lbr hmem) rfl

theorem cond_headY (pat X Y : Str) (hpat : ∀ c ∈ pat, c ≠ lbr)
    (hY : Y.head? = some lbr) :
    ∀ k, k < X.length → pat.isPrefixOf ((X ++ Y).drop k) = true →
      k + pat.length ≤ X.length := by
  intro k hk hpre
  by_contra hgt
  exact no_cross_headY pat X Y hpat hY k hk (by omega) hpre

/-- A bracket-shaped pattern cannot start inside `X` at a positive
offset from a bracket-opening `Y` either. -/
theorem no_cross_bs_headY (q X Y : Str) (hq : BracketShaped q)
    (hY : Y.head? = some lbr) :
    ∀ k, k < X.length → X.length < k + q.length →
      ¬ q.isPrefixOf ((X ++ Y).drop k) = true := by
  intro k hk hgt hpre
  rw [List.isPrefixOf_iff_prefix, List.drop_append_of_le_length (le_of_lt hk)]
    at hpre
  obtain ⟨r, hr, hrB, hrne⟩ := prefix_overlap hpre (by rw [List.length_drop]; omega)
  have hrd : r = q.drop (X.drop k).length := by
    rw [hr, List.drop_left]
  have hj1 : 1 ≤ (X.drop k).length := by rw [List.length_drop]; omega
  have hlen : q.length = (X.drop k).length + r.length := by
    rw [hr, List.length_append]
  have hrpos : 0 < r.length := List.length_pos.mpr hrne
  have hj2 : (X.drop k).length < q.length := by omega
  have hhead : (q.drop (X.drop k).length).head? = some lbr := by
    rw [← hrd, isPrefix_head? hrB hrne, hY]
  exact bs_drop_head_ne_lbr hq hj1 hj2 hhead rfl

theorem cond_bs_headY (q X Y : Str) (hq : BracketShaped q)
    (hY : Y.head? = some lbr) :
    ∀ k, k < X.length → q.isPrefixOf ((X ++ Y).drop k) = true →
      k + q.length ≤ X.length := by
  intro k hk hpre
  by_contra hgt
  exact no_cross_bs_headY q X Y hq hY k hk (by omega) hpre

/-- No occurrence of a bracket-shaped pattern starts at a positive
offset inside a bracket-shaped placeholder. -/
theorem cond_q_self (q Y : Str) (hq : BracketShaped q) :
    ∀ k, k < q.length → q.isPrefixOf ((q ++ Y).drop k) = true →
      k + q.length ≤ q.length := by
  intro k hk hpre
  rcases Nat.eq_zero_or_pos k with rfl | hk1
  · omega
  · exfalso
    rw [List.isPrefixOf_iff_prefix, List.drop_append_of_le_length (le_of_lt hk)]
      at hpre
    have hh : q.head? = ((q.drop k) ++ Y).head? :=
      isPrefix_head? hpre (bs_ne_nil hq)
    rw [head?_eq_of_ne_nil _ _ (drop_ne_nil_of_lt hk), bs_head hq] at hh
    exact bs_drop_head_ne_lbr hq hk1 hk hh.symm rfl

/-- Two distinct bracket-shaped placeholders never contain one another. -/
theorem no_occurs_q_in_p (q p : Str) (hq : BracketShaped q)
    (hp : BracketShaped p) (hne : q ≠ p) : ¬ OccursIn q p := by
  intro hocc
  rw [occursIn_iff_drop] at hocc
  obtain ⟨k, hklen, hpre⟩ := hocc
  rw [List.isPrefixOf_iff_prefix] at hpre
  have hq2 := bs_two_le hq
  have hkp : k < p.length := by omega
  rcases Nat.eq_zero_or_pos k with rfl | hk1
  · rw [List.drop_zero] at hpre
    by_cases hlen : q.length = p.length
    · exact hne (hpre.eq_of_length hlen)
    · have hql : q.length < p.length := by omega
      obtain ⟨t, ht⟩ := hpre
      have hdrop : p.drop (q.length - 1) = [rbr] ++ t := by
        rw [← ht, List.drop_append_of_le_length (by omega), bs_drop_last hq]
      have hhead : (p.drop (q.length - 1)).head? = some rbr := by
        rw [hdrop]
        rfl
      exact bs_drop_head_ne_rbr hp (by omega) (by omega) hhead rfl
  · have hh : q.head? = (p.drop k).head? := isPrefix_head? hpre (bs_ne_nil hq)
    rw [bs_head hq] at hh
    exact bs_drop_head_ne_lbr hp hk1 hkp hh.symm rfl

/-- No occurrence of a bracket-shaped pattern starts anywhere inside a
distinct bracket-shaped placeholder, even extending past it. -/
theorem no_start_q_in_p (q p Y : Str) (hq : BracketShaped q)
    (hp : BracketShaped p) (hne : q ≠ p) :
    ∀ k, k < p.length → ¬ q.isPrefixOf ((p ++ Y).drop k) = true := by
  intro k hk hpre
  rw [List.isPrefixOf_iff_prefix, List.drop_append_of_le_length (le_of_lt hk)]
    at hpre
  rcases Nat.eq_zero_or_pos k with rfl | hk1
  · rw [List.drop_zero] at hpre
    by_cases hql : q.length ≤ p.length
    · have hqp : q <+: p :=
        List.prefix_of_prefix_length_le hpre (List.prefix_append p Y) hql
      apply no_occurs_q_in_p q p hq hp hne
      obtain ⟨t, ht⟩ := hqp
      exact ⟨[], t, by rw [← ht]; rfl⟩
    · push_neg at hql
      obtain ⟨r, hr, hrB, hrne⟩ := prefix_overlap hpre hql
      have hp2 := bs_two_le hp
      have hdrop : q.drop (p.length - 1) = [rbr] ++ r := by
        rw [hr, List.drop_append_of_le_length (by omega), bs_drop_last hp]
      have hhead : (q.drop (p.length - 1)).head? = some rbr := by
        rw [hdrop]
        rfl
      exact bs_drop_head_ne_rbr hq (by omega) (by omega) hhead rfl
  · have hh : q.head? = (p.drop k ++ Y).head? := isPrefix_head? hpre (bs_ne_nil hq)
    rw [head?_eq_of_ne_nil _ _ (drop_ne_nil_of_lt hk), bs_head hq] at hh
    exact bs_drop_head_ne_lbr hp hk1 hk hh.symm rfl

/-- A pattern free of the closing bracket cannot start inside a
bracket-shaped placeholder and extend past it. -/
theorem cond_free_in_bs (pat p Y : Str) (hp : BracketShaped p)
    (hfree : ∀ c ∈ pat, c ≠ rbr) :
    ∀ k, k < p.length → pat.isPrefixOf ((p ++ Y).drop k) = true →
      k + pat.length ≤ p.length := by
  intro k hk hpre
  by_contra hgt
  rw [List.isPrefixOf_iff_prefix, List.drop_append_of_le_length (le_of_lt hk)]
    at hpre
  obtain ⟨r, hr, hrB, hrne⟩ := prefix_overlap hpre (by rw [List.length_drop]; omega)
  have hmem : rbr ∈ p.drop k := bs_rbr_mem_drop hp hk
  have hmem2 : rbr ∈ pat := by
    rw [hr]
    exact List.mem_append_left _ hmem
  exact (hfree rbr hmem2) rfl

/-! ### Chunk decompositions of a partially redacted text.  A state is
a head of raw text followed by chunks `((placeholder, original),
trailing raw text)`; `mflat` is the visible string, `msrc` the string
with every placeholder replaced by its original. -/

/-- The visible (masked) string of a chunk decomposition. -/
def mflat : Str → List ((Str × Str) × Str) → Str
  | h, [] => h
  | h, (e, a) :: l => h ++ e.1 ++ mflat a l

/-- The source string of a chunk decomposition: every placeholder chunk
contributes its original. -/
def msrc : Str → List ((Str × Str) × Str) → Str
  | h, [] => h
  | h, (e, a) :: l => h ++ e.2 ++ msrc a l

theorem mflat_append_head (x y : Str) (l : List ((Str × Str) × Str)) :
    mflat (x ++ y) l = x ++ mflat y l := by
  cases l with
  | nil => rfl
  | cons e t =>
    obtain ⟨e, a⟩ := e
    simp [mflat]

theorem msrc_append_head (x y : Str) (l : List ((Str × Str) × Str)) :
    msrc (x ++ y) l = x ++ msrc y l := by
  cases l with
  | nil => rfl
  | cons e t =>
    obtain ⟨e, a⟩ := e
    simp [msrc]

theorem mflat_append (h : Str) (l₁ : List ((Str × Str) × Str))
    (e : Str × Str) (b : Str) (l₂ : List ((Str × Str) × Str)) :
    mflat h (l₁ ++ (e, b) :: l₂) = mflat h l₁ ++ e.1 ++ mflat b l₂ := by
  induction l₁ generalizing h with
  | nil => rfl
  | cons x t ih =>
    obtain ⟨x, a⟩ := x
    show h ++ x.1 ++ mflat a (t ++ (e, b) :: l₂) = (h ++ x.1 ++ mflat a t) ++ _ ++ _
    rw [ih]
    simp [List.append_assoc]

theorem msrc_append (h : Str) (l₁ : List ((Str × Str) × Str))
    (e : Str × Str) (b : Str) (l₂ : List ((Str × Str) × Str)) :
    msrc h (l₁ ++ (e, b) :: l₂) = msrc h l₁ ++ e.2 ++ msrc b l₂ := by
  induction l₁ generalizing h with
  | nil => rfl
  | cons x t ih =>
    obtain ⟨x, a⟩ := x
    show h ++ x.2 ++ msrc a (t ++ (e, b) :: l₂) = (h ++ x.2 ++ msrc a t) ++ _ ++ _
    rw [ih]
    simp [List.append_assoc]

/-- Fuel-driven chunking scan of one raw string: mirrors
`replaceAllAuxF` but records each replacement as a chunk. -/
def splitChunksF (o p : Str) : Nat → Str → Str × List ((Str × Str) × Str)
  | _, [] => ([], [])
  | 0, s => (s, [])
  | fuel + 1, c :: rest =>
    if o ≠ [] ∧ o.isPrefixOf (c :: rest) then
      let r := splitChunksF o p fuel (rest.drop (o.length - 1))
      ([], ((p, o), r.1) :: r.2)
    else
      let r := splitChunksF o p fuel rest
      (c :: r.1, r.2)

/-- Chunking scan of one raw string by `str.replace`. -/
def splitChunks (o p s : Str) : Str × List ((Str × Str) × Str) :=
  splitChunksF o p s.length s

theorem splitChunksF_flat (o p : Str) :
    ∀ fuel s, s.length ≤ fuel →
      mflat (splitChunksF o p fuel s).1 (splitChunksF o p fuel s).2
        = replaceAllAuxF o p fuel s := by
  intro fuel
  induction fuel with
  | zero =>
    intro s hlen
    have : s = [] := List.length_eq_zero.mp (Nat.le_zero.mp hlen)
    subst this
    rfl
  | succ fuel ih =>
    intro s hlen
    cases s with
    | nil => rfl
    | cons c rest =>
      by_cases hcnd : o ≠ [] ∧ o.isPrefixOf (c :: rest) = true
      · rw [show splitChunksF o p (fuel + 1) (c :: rest)
            = ([], ((p, o), (splitChunksF o p fuel (rest.drop (o.length - 1))).1)
                :: (splitChunksF o p fuel (rest.drop (o.length - 1))).2)
            from by rw [splitChunksF, if_pos hcnd]]
        rw [show replaceAllAuxF o p (fuel + 1) (c :: rest)
            = p ++ replaceAllAuxF o p fuel (rest.drop (o.length - 1))
            from by rw [replaceAllAuxF, if_pos hcnd]]
        show [] ++ p ++ mflat (splitChunksF o p fuel (rest.drop (o.length - 1))).1
              (splitChunksF o p fuel (rest.drop (o.length - 1))).2
          = p ++ replaceAllAuxF o p fuel (rest.drop (o.length - 1))
        rw [ih (rest.drop (o.length - 1)) (by
          simp only [List.length_drop]
          simp only [List.length_cons] at hlen
          omega)]
        rfl
      · rw [show splitChunksF o p (fuel + 1) (c :: rest)
            = (c :: (splitChunksF o p fuel rest).1, (splitChunksF o p fuel rest).2)
            from by rw [splitChunksF, if_neg hcnd]]
        rw [show replaceAllAuxF o p (fuel + 1) (c :: rest)
            = c :: replaceAllAuxF o p fuel rest
            from by rw [replaceAllAuxF, if_neg hcnd]]
        show mflat (c :: (splitChunksF o p fuel rest).1) (splitChunksF o p fuel rest).2
          = c :: replaceAllAuxF o p fuel rest
        have hc : c :: (splitChunksF o p fuel rest).1
            = [c] ++ (splitChunksF o p fuel rest).1 := rfl
        rw [hc, mflat_append_head, ih rest (by
          simp only [List.length_cons] at hlen
          omega)]
        rfl

theorem splitChunksF_src (o p : Str) (ho : o ≠ []) :
    ∀ fuel s, s.length ≤ fuel →
      msrc (splitChunksF o p fuel s).1 (splitChunksF o p fuel s).2 = s := by
  intro fuel
  induction fuel with
  | zero =>
    intro s hlen
    have : s = [] := List.length_eq_zero.mp (Nat.le_zero.mp hlen)
    subst this
    rfl
  | succ fuel ih =>
    intro s hlen
    cases s with
    | nil => rfl
    | cons c rest =>
      by_cases hcnd : o ≠ [] ∧ o.isPrefixOf (c :: rest) = true
      · rw [show splitChunksF o p (fuel + 1) (c :: rest)
            = ([], ((p, o), (splitChunksF o p fuel (rest.drop (o.length - 1))).1)
                :: (splitChunksF o p fuel (rest.drop (o.length - 1))).2)
            from by rw [splitChunksF, if_pos hcnd]]
        show [] ++ o ++ msrc (splitChunksF o p fuel (rest.drop (o.length - 1))).1
              (splitChunksF o p fuel (rest.drop (o.length - 1))).2
          = c :: rest
        rw [ih (rest.drop (o.length - 1)) (by
          simp only [List.length_drop]
          simp only [List.length_cons] at hlen
          omega)]
        have hpre := hcnd.2
        rw [List.isPrefixOf_iff_prefix] at hpre
        obtain ⟨t, ht⟩ := hpre
        cases ho2 : o with
        | nil => exact absurd ho2 ho
        | cons d o' =>
          rw [ho2] at ht
          rw [show (d :: o') ++ t = d :: (o' ++ t) from rfl] at ht
          injection ht with h1 h2
          have hdrop : rest.drop ((d :: o').length - 1) = t := by
            rw [← h2]
            simp only [List.length_cons]
            have hl : o'.length + 1 - 1 = o'.length := by omega
            rw [hl, List.drop_left]
          rw [hdrop, h1, ← h2]
          simp
      · rw [show splitChunksF o p (fuel + 1) (c :: rest)
            = (c :: (splitChunksF o p fuel rest).1, (splitChunksF o p fuel rest).2)
            from by rw [splitChunksF, if_neg hcnd]]
        have hc2 : c :: (splitChunksF o p fuel rest).1
            = [c] ++ (splitChunksF o p fuel rest).1 := rfl
        show msrc (c :: (splitChunksF o p fuel rest).1)
            (splitChunksF o p fuel rest).2 = c :: rest
        rw [hc2, msrc_append_head, ih rest (by
          simp only [List.length_cons] at hlen
          omega)]
        rfl

theorem splitChunksF_chunks (o p : Str) :
    ∀ fuel s, ∀ e ∈ (splitChunksF o p fuel s).2, e.1 = (p, o) := by
  intro fuel
  induction fuel with
  | zero =>
    intro s e he
    cases s <;> simp [splitChunksF] at he
  | succ fuel ih =>
    intro s e he
    cases s with
    | nil => simp [splitChunksF] at he
    | cons c rest =>
      by_cases hcnd : o ≠ [] ∧ o.isPrefixOf (c :: rest) = true
      · rw [show splitChunksF o p (fuel + 1) (c :: rest)
            = ([], ((p, o), (splitChunksF o p fuel (rest.drop (o.length - 1))).1)
                :: (splitChunksF o p fuel (rest.drop (o.length - 1))).2)
            from by rw [splitChunksF, if_pos hcnd]] at he
        rcases List.mem_cons.mp he with rfl | hmem
        · rfl
        · exact ih (rest.drop (o.length - 1)) e hmem
      · rw [show splitChunksF o p (fuel + 1) (c :: rest)
            = (c :: (splitChunksF o p fuel rest).1, (splitChunksF o p fuel rest).2)
            from by rw [splitChunksF, if_neg hcnd]] at he
        exact ih rest e he

theorem splitChunks_flat (o p s : Str) (ho : o ≠ []) :
    mflat (splitChunks o p s).1 (splitChunks o p s).2 = replaceAll o p s := by
  rw [replaceAll_ne _ _ _ ho]
  exact splitChunksF_flat o p s.length s (le_refl _)

theorem splitChunks_src (o p s : Str) (ho : o ≠ []) :
    msrc (splitChunks o p s).1 (splitChunks o p s).2 = s :=
  splitChunksF_src o p ho s.length s (le_refl _)

theorem splitChunks_chunks (o p s : Str) :
    ∀ e ∈ (splitChunks o p s).2, e.1 = (p, o) :=
  splitChunksF_chunks o p s.length s

/-- Effect of one `unredact` step on a chunk decomposition: every chunk
holding placeholder `q` is restored to its original and merged into the
surrounding raw text. -/
def mrestore (q oq : Str) : Str → List ((Str × Str) × Str) →
    Str × List ((Str × Str) × Str)
  | h, [] => (h, [])
  | h, (e, a) :: l =>
    let r := mrestore q oq a l
    if e.1 = q then (h ++ oq ++ r.1, r.2) else (h, (e, r.1) :: r.2)

theorem mrestore_spec (q oq : Str) (hq : BracketShaped q) :
    ∀ (l : List ((Str × Str) × Str)) (h : Str),
      (∀ e ∈ l, BracketShaped e.1.1 ∧ (e.1.1 = q → e.1.2 = oq)) →
      ¬ OccursIn q (msrc h l) →
      replaceAll q oq (mflat h l)
          = mflat (mrestore q oq h l).1 (mrestore q oq h l).2
        ∧ msrc (mrestore q oq h l).1 (mrestore q oq h l).2 = msrc h l
        ∧ ∀ e ∈ (mrestore q oq h l).2,
            e.1 ∈ l.map (fun x => x.1) ∧ e.1.1 ≠ q := by
  intro l
  induction l with
  | nil =>
    intro h _ hsrc
    refine ⟨?_, rfl, by simp [mrestore]⟩
    exact replaceAll_of_not_occurs q oq h (bs_ne_nil hq) hsrc
  | cons x l ih =>
    obtain ⟨⟨p, o⟩, a⟩ := x
    intro h hl hsrc
    have hx := hl ((p, o), a) (List.mem_cons_self _ _)
    have hl' : ∀ e ∈ l, BracketShaped e.1.1 ∧ (e.1.1 = q → e.1.2 = oq) :=
      fun e he => hl e (List.mem_cons_of_mem _ he)
    have hpshape : BracketShaped p := hx.1
    have hsrceq : msrc h (((p, o), a) :: l) = h ++ (o ++ msrc a l) := by
      show h ++ o ++ msrc a l = _
      rw [List.append_assoc]
    have hsrc_h : ¬ OccursIn q h := fun hc => by
      rw [hsrceq] at hsrc
      exact hsrc (occursIn_append_right _ _ _ hc)
    have hsrc_a : ¬ OccursIn q (msrc a l) := fun hc => by
      rw [hsrceq] at hsrc
      exact hsrc (occursIn_append_left _ _ _ (occursIn_append_left _ _ _ hc))
    have hflat : mflat h (((p, o), a) :: l) = h ++ (p ++ mflat a l) := by
      show h ++ p ++ mflat a l = _
      rw [List.append_assoc]
    have hYhead : (p ++ mflat a l).head? = some lbr := by
      rw [head?_eq_of_ne_nil _ _ (bs_ne_nil hpshape), bs_head hpshape]
    have hd1 : replaceAll q oq (h ++ (p ++ mflat a l))
        = replaceAll q oq h ++ replaceAll q oq (p ++ mflat a l) :=
      replaceAll_append q oq (bs_ne_nil hq) h _ (cond_bs_headY q h _ hq hYhead)
    have hid_h : replaceAll q oq h = h :=
      replaceAll_of_not_occurs _ _ _ (bs_ne_nil hq) hsrc_h
    obtain ⟨ih1, ih2, ih3⟩ := ih a hl' hsrc_a
    by_cases hpq : p = q
    · subst hpq
      have ho : o = oq := hx.2 rfl
      subst ho
      have hd2 : replaceAll p o (p ++ mflat a l)
          = replaceAll p o p ++ replaceAll p o (mflat a l) :=
        replaceAll_append p o (bs_ne_nil hq) p _ (cond_q_self p _ hq)
      have hself := replaceAll_self p o (bs_ne_nil hq)
      have hre : mrestore p o h (((p, o), a) :: l)
          = (h ++ o ++ (mrestore p o a l).1, (mrestore p o a l).2) := by
        simp [mrestore]
      refine ⟨?_, ?_, ?_⟩
      · rw [hflat, hd1, hid_h, hd2, hself, ih1, hre]
        have hm : mflat (h ++ o ++ (mrestore p o a l).1) (mrestore p o a l).2
            = (h ++ o) ++ mflat (mrestore p o a l).1 (mrestore p o a l).2 :=
          mflat_append_head _ _ _
        rw [hm]
        simp [List.append_assoc]
      · rw [hre]
        have hm : msrc (h ++ o ++ (mrestore p o a l).1) (mrestore p o a l).2
            = (h ++ o) ++ msrc (mrestore p o a l).1 (mrestore p o a l).2 :=
          msrc_append_head _ _ _
        rw [hm, ih2]
        show (h ++ o) ++ msrc a l = h ++ o ++ msrc a l
        rfl
      · rw [hre]
        intro e he
        obtain ⟨hm, hne⟩ := ih3 e he
        exact ⟨by simp only [List.map_cons]; exact List.mem_cons_of_mem _ hm, hne⟩
    · have hqp : q ≠ p := fun hh => hpq hh.symm
      have hd2 : replaceAll q oq (p ++ mflat a l)
          = p ++ replaceAll q oq (mflat a l) := by
        rw [replaceAll_append q oq (bs_ne_nil hq) p _
          (fun k hk hpre => absurd hpre (no_start_q_in_p q p _ hq hpshape hqp k hk)),
          replaceAll_of_not_occurs q oq p (bs_ne_nil hq)
            (no_occurs_q_in_p q p hq hpshape hqp)]
      have hre : mrestore q oq h (((p, o), a) :: l)
          = (h, ((p, o), (mrestore q oq a l).1) :: (mrestore q oq a l).2) := by
        simp [mrestore, hpq]
      refine ⟨?_, ?_, ?_⟩
      · rw [hflat, hd1, hid_h, hd2, ih1, hre]
        show h ++ (p ++ mflat (mrestore q oq a l).1 (mrestore q oq a l).2)
          = h ++ p ++ mflat (mrestore q oq a l).1 (mrestore q oq a l).2
        rw [List.append_assoc]
      · rw [hre]
        show h ++ o ++ msrc (mrestore q oq a l).1 (mrestore q oq a l).2
          = msrc h (((p, o), a) :: l)
        rw [ih2]
        rfl
      · rw [hre]
        intro e he
        rcases List.mem_cons.mp he with rfl | h2
        · exact ⟨by simp, hpq⟩
        · obtain ⟨hm, hne⟩ := ih3 e h2
          exact ⟨by simp only [List.map_cons]; exact List.mem_cons_of_mem _ hm, hne⟩

/-- Effect of one redaction substitution on a chunk decomposition:
each raw piece is chunked by `splitChunks` and existing placeholder
chunks are untouched. -/
def msubst (o p : Str) : Str → List ((Str × Str) × Str) →
    Str × List ((Str × Str) × Str)
  | h, [] => splitChunks o p h
  | h, (e, a) :: l =>
    let s := splitChunks o p h
    let r := msubst o p a l
    (s.1, s.2 ++ (e, r.1) :: r.2)

theorem msubst_spec (o p : Str) (ho : o ≠ []) (hofree : bracketFree o) :
    ∀ (l : List ((Str × Str) × Str)) (h : Str),
      (∀ e ∈ l, BracketShaped e.1.1 ∧ ¬ OccursIn o e.1.1) →
      replaceAll o p (mflat h l)
          = mflat (msubst o p h l).1 (msubst o p h l).2
        ∧ msrc (msubst o p h l).1 (msubst o p h l).2 = msrc h l
        ∧ ∀ e ∈ (msubst o p h l).2,
            e.1 ∈ l.map (fun x => x.1) ∨ e.1 = (p, o) := by
  intro l
  induction l with
  | nil =>
    intro h _
    exact ⟨(splitChunks_flat o p h ho).symm, splitChunks_src o p h ho,
      fun e he => Or.inr (splitChunks_chunks o p h e he)⟩
  | cons x l ih =>
    obtain ⟨⟨pp, oo⟩, a⟩ := x
    intro h hl
    have hx := hl ((pp, oo), a) (List.mem_cons_self _ _)
    have hl' : ∀ e ∈ l, BracketShaped e.1.1 ∧ ¬ OccursIn o e.1.1 :=
      fun e he => hl e (List.mem_cons_of_mem _ he)
    have hppshape : BracketShaped pp := hx.1
    have hYhead : (pp ++ mflat a l).head? = some lbr := by
      rw [head?_eq_of_ne_nil _ _ (bs_ne_nil hppshape), bs_head hppshape]
    have hofree_l : ∀ c ∈ o, c ≠ lbr := fun c hc => (hofree c hc).1
    have hofree_r : ∀ c ∈ o, c ≠ rbr := fun c hc => (hofree c hc).2
    have hflat : mflat h (((pp, oo), a) :: l) = h ++ (pp ++ mflat a l) := by
      show h ++ pp ++ mflat a l = _
      rw [List.append_assoc]
    have hd1 : replaceAll o p (h ++ (pp ++ mflat a l))
        = replaceAll o p h ++ replaceAll o p (pp ++ mflat a l) :=
      replaceAll_append o p ho h _ (cond_headY o h _ hofree_l hYhead)
    have hd2 : replaceAll o p (pp ++ mflat a l)
        = pp ++ replaceAll o p (mflat a l) := by
      rw [replaceAll_append o p ho pp _ (cond_free_in_bs o pp _ hppshape hofree_r),
        replaceAll_of_not_occurs o p pp ho hx.2]
    obtain ⟨ih1, ih2, ih3⟩ := ih a hl'
    have hms : msubst o p h (((pp, oo), a) :: l)
        = ((splitChunks o p h).1,
            (splitChunks o p h).2 ++ ((pp, oo), (msubst o p a l).1)
              :: (msubst o p a l).2) := by
      simp [msubst]
    refine ⟨?_, ?_, ?_⟩
    · rw [hflat, hd1, hd2, ih1, hms, mflat_append, splitChunks_flat o p h ho]
      simp [List.append_assoc]
    · rw [hms, msrc_append, splitChunks_src o p h ho, ih2]
      rfl
    · rw [hms]
      intro e he
      rcases List.mem_append.mp he with h1 | h1
      · exact Or.inr (splitChunks_chunks o p h e h1)
      · rcases List.mem_cons.mp h1 with rfl | h2
        · exact Or.inl (by simp)
        · rcases ih3 e h2 with hh | hh
          · exact Or.inl (by simp only [List.map_cons]; exact List.mem_cons_of_mem _ hh)
          · exact Or.inr hh

/-- A bracket-free pattern occurring in no raw piece and no placeholder
leaves a chunked string unchanged. -/
theorem replaceAll_chunks_id (pat rep : Str) (hp : pat ≠ [])
    (hfree : bracketFree pat) :
    ∀ (l : List ((Str × Str) × Str)) (h : Str),
      (∀ e ∈ l, BracketShaped e.1.1 ∧ ¬ OccursIn pat e.1.1 ∧ ¬ OccursIn pat e.2) →
      ¬ OccursIn pat h →
      replaceAll pat rep (mflat h l) = mflat h l := by
  intro l
  induction l with
  | nil =>
    intro h _ hh
    exact replaceAll_of_not_occurs pat rep h hp hh
  | cons x l ih =>
    obtain ⟨⟨pp, oo⟩, a⟩ := x
    intro h hl hh
    have hx := hl ((pp, oo), a) (List.mem_cons_self _ _)
    have hl' : ∀ e ∈ l, BracketShaped e.1.1 ∧ ¬ OccursIn pat e.1.1
        ∧ ¬ OccursIn pat e.2 := fun e he => hl e (List.mem_cons_of_mem _ he)
    have hppshape : BracketShaped pp := hx.1
    have hYhead : (pp ++ mflat a l).head? = some lbr := by
      rw [head?_eq_of_ne_nil _ _ (bs_ne_nil hppshape), bs_head hppshape]
    have hfree_l : ∀ c ∈ pat, c ≠ lbr := fun c hc => (hfree c hc).1
    have hfree_r : ∀ c ∈ pat, c ≠ rbr := fun c hc => (hfree c hc).2
    have hflat : mflat h (((pp, oo), a) :: l) = h ++ (pp ++ mflat a l) := by
      show h ++ pp ++ mflat a l = _
      rw [List.append_assoc]
    rw [hflat,
      replaceAll_append pat rep hp h _ (cond_headY pat h _ hfree_l hYhead),
      replaceAll_of_not_occurs pat rep h hp hh,
      replaceAll_append pat rep hp pp _
        (cond_free_in_bs pat pp _ hppshape hfree_r),
      replaceAll_of_not_occurs pat rep pp hp hx.2.1,
      ih a hl' hx.2.2]

theorem insDesc_perm {α : Type} (key : α → Nat) (x : α) (l : List α) :
    (insDesc key x l).Perm (x :: l) := by
  induction l with
  | nil => exact List.Perm.refl _
  | cons y ys ih =>
    unfold insDesc
    split
    · exact List.Perm.refl _
    · exact (List.Perm.cons y ih).trans (List.Perm.swap x y ys)

theorem sortByKeyDesc_perm {α : Type} (key : α → Nat) (l : List α) :
    (sortByKeyDesc key l).Perm l := by
  induction l with
  | nil => exact List.Perm.refl _
  | cons x xs ih =>
    show (insDesc key x (sortByKeyDesc key xs)).Perm (x :: xs)
    exact (insDesc_perm key x _).trans (List.Perm.cons x ih)

theorem dictGet_mem {α : Type} (d : List (Str × α)) (k : Str) (v : α)
    (h : dictGet d k = some v) : (k, v) ∈ d := by
  unfold dictGet at h
  cases hf : d.find? (fun e => e.1 == k) with
  | none =>
    rw [hf] at h
    exact Option.noConfusion h
  | some e =>
    rw [hf] at h
    simp only [Option.map_some', Option.some.injEq] at h
    have hm := List.mem_of_find?_eq_some hf
    have hp := List.find?_some hf
    obtain ⟨e1, e2⟩ := e
    simp only [beq_iff_eq] at hp
    subst hp
    subst h
    exact hm

theorem mem_unique_of_nodup_keys {α : Type} (d : List (Str × α))
    (hnd : (dictKeys d).Nodup) :
    ∀ {k : Str} {v1 v2 : α}, (k, v1) ∈ d → (k, v2) ∈ d → v1 = v2 := by
  induction d with
  | nil =>
    intro k v1 v2 h1 _
    exact absurd h1 (List.not_mem_nil _)
  | cons e t ih =>
    intro k v1 v2 h1 h2
    have hnd' : (dictKeys t).Nodup := (List.nodup_cons.mp hnd).2
    have hkey : e.1 ∉ dictKeys t := (List.nodup_cons.mp hnd).1
    rcases List.mem_cons.mp h1 with rfl | h1t
    · rcases List.mem_cons.mp h2 with he | h2t
      · exact (Prod.ext_iff.mp he).2.symm
      · exfalso
        apply hkey
        show (k, v1).1 ∈ dictKeys t
        exact List.mem_map_of_mem (fun x => x.1) h2t
    · rcases List.mem_cons.mp h2 with he | h2t
      · exfalso
        apply hkey
        rw [← he]
        show (k, v2).1 ∈ dictKeys t
        exact List.mem_map_of_mem (fun x => x.1) h1t
      · exact ih hnd' h1t h2t

/-- The `unredact` fold restores the source text of a chunk
decomposition whose placeholder chunks all appear in the remaining
reverse-table entries. -/
theorem unredact_fold (text : Str) (rem : List (Str × Str)) :
    ∀ (h : Str) (l : List ((Str × Str) × Str)),
      (∀ g ∈ rem, BracketShaped g.1) →
      (∀ g ∈ rem, ¬ OccursIn g.1 text) →
      (∀ g ∈ rem, ∀ gg ∈ rem, g.1 = gg.1 → g.2 = gg.2) →
      (∀ e ∈ l, e.1 ∈ rem) →
      msrc h l = text →
      rem.foldl (fun t g => replaceAll g.1 g.2 t) (mflat h l) = text := by
  induction rem with
  | nil =>
    intro h l _ _ _ hmem hsrc
    have hl : l = [] := by
      cases l with
      | nil => rfl
      | cons e t => exact absurd (hmem e (List.mem_cons_self _ _)) (List.not_mem_nil _)
    subst hl
    exact hsrc
  | cons g rem ih =>
    obtain ⟨q, oq⟩ := g
    intro h l hshape htext huniq hmem hsrc
    have hqshape : BracketShaped q := hshape _ (List.mem_cons_self _ _)
    have hchunkcond : ∀ e ∈ l, BracketShaped e.1.1 ∧ (e.1.1 = q → e.1.2 = oq) := by
      intro e he
      have hg := hmem e he
      refine ⟨hshape e.1 hg, fun hq1 => ?_⟩
      have := huniq e.1 hg (q, oq) (List.mem_cons_self _ _) hq1
      exact this
    have hsrcq : ¬ OccursIn q (msrc h l) := by
      rw [hsrc]
      exact htext (q, oq) (List.mem_cons_self _ _)
    obtain ⟨h1, h2, h3⟩ := mrestore_spec q oq hqshape l h hchunkcond hsrcq
    rw [List.foldl_cons]
    show rem.foldl _ (replaceAll q oq (mflat h l)) = text
    rw [h1]
    apply ih (mrestore q oq h l).1 (mrestore q oq h l).2
      (fun g hg => hshape g (List.mem_cons_of_mem _ hg))
      (fun g hg => htext g (List.mem_cons_of_mem _ hg))
      (fun g hg gg hgg => huniq g (List.mem_cons_of_mem _ hg) gg
        (List.mem_cons_of_mem _ hgg))
      ?_ (h2.trans hsrc)
    intro e he
    obtain ⟨hm, hne⟩ := h3 e he
    obtain ⟨x, hx, hxe⟩ := List.mem_map.mp hm
    have := hmem x hx
    rw [hxe] at this
    rcases List.mem_cons.mp this with heq | hmem'
    · exact absurd (congrArg Prod.fst heq) hne
    · exact hmem'

/-- The substitution fold of `redact` preserves the source string and
keeps all chunk placeholders within the store graph `G`. -/
theorem subst_fold (G : List (Str × Str)) (hGshape : ∀ g ∈ G, BracketShaped g.1) :
    ∀ (rl : List Redaction),
      (∀ rd ∈ rl, rd.original ≠ [] ∧ bracketFree rd.original
        ∧ (rd.placeholder, rd.original) ∈ G
        ∧ ∀ g ∈ G, ¬ OccursIn rd.original g.1) →
      ∀ (h : Str) (l : List ((Str × Str) × Str)),
        (∀ e ∈ l, e.1 ∈ G) →
        ∃ h2 l2,
          rl.foldl (fun t rd => replaceAll rd.original rd.placeholder t) (mflat h l)
              = mflat h2 l2
            ∧ msrc h2 l2 = msrc h l
            ∧ ∀ e ∈ l2, e.1 ∈ G := by
  intro rl
  induction rl with
  | nil =>
    intro _ h l hmem
    exact ⟨h, l, rfl, rfl, hmem⟩
  | cons rd rl ih =>
    intro hrl h l hmem
    have hrd := hrl rd (List.mem_cons_self _ _)
    have hchunk : ∀ e ∈ l, BracketShaped e.1.1 ∧ ¬ OccursIn rd.original e.1.1 := by
      intro e he
      exact ⟨hGshape e.1 (hmem e he), hrd.2.2.2 e.1 (hmem e he)⟩
    obtain ⟨m1, m2, m3⟩ :=
      msubst_spec rd.original rd.placeholder hrd.1 hrd.2.1 l h hchunk
    have hnewmem : ∀ e ∈ (msubst rd.original rd.placeholder h l).2, e.1 ∈ G := by
      intro e he
      rcases m3 e he with hh | hh
      · obtain ⟨x, hx, hxe⟩ := List.mem_map.mp hh
        rw [← hxe]
        exact hmem x hx
      · rw [hh]
        exact hrd.2.2.1
    obtain ⟨h2, l2, f1, f2, f3⟩ :=
      ih (fun r hr => hrl r (List.mem_cons_of_mem _ hr))
        (msubst rd.original rd.placeholder h l).1
        (msubst rd.original rd.placeholder h l).2 hnewmem
    refine ⟨h2, l2, ?_, f2.trans m2, f3⟩
    rw [List.foldl_cons]
    show rl.foldl _ (replaceAll rd.original rd.placeholder (mflat h l)) = mflat h2 l2
    rw [m1, f1]

theorem dictGet_singleton {α : Type} (a : Str) (b : α) (k : Str) (v : α)
    (h : dictGet [(a, b)] k = some v) : k = a ∧ v = b := by
  unfold dictGet at h
  cases hak : (a == k) with
  | true =>
    have hf : List.find? (fun e => e.1 == k) [(a, b)] = some (a, b) := by
      simp only [List.find?, hak]
    rw [hf] at h
    simp only [Option.map_some', Option.some.injEq] at h
    simp only [beq_iff_eq] at hak
    exact ⟨hak.symm, h.symm⟩
  | false =>
    have hf : List.find? (fun e => e.1 == k) [(a, b)] = none := by
      simp only [List.find?, hak]
    rw [hf] at h
    simp only [Option.map_none'] at h
    exact Option.noConfusion h

/-- C1 (amended): round trip of `redact` and `unredact`.  If, over the
final (post-call) store, every stored original is non-empty,
bracket-free and occurs in no stored placeholder, every stored
placeholder is bracket-shaped, the reverse table inverts the forward
table, the dict-backed tables have unique keys, and the input text
contains no stored placeholder as a substring, then `unredact` applied
to the masked text returned by `redact` yields the text again. -/
theorem roundtrip_amended (r : Redactor) (text : Str)
    (pd nd : Str → List (Str × Str))
    (hnod : (dictKeys r.mapping).Nodup)
    (hH1 : ∀ e ∈ (redact r text pd nd).2.2.mapping, e.1 ≠ [] ∧ bracketFree e.1)
    (hH1b : ∀ e ∈ (redact r text pd nd).2.2.mapping,
        ∀ g ∈ (redact r text pd nd).2.2.reverse, ¬ OccursIn e.1 g.1)
    (hH2 : ∀ g ∈ (redact r text pd nd).2.2.reverse, BracketShaped g.1)
    (hH3 : ∀ o p, dictGet (redact r text pd nd).2.2.mapping o = some p →
        dictGet (redact r text pd nd).2.2.reverse p = some o)
    (hH4 : ∀ g ∈ (redact r text pd nd).2.2.reverse, ¬ OccursIn g.1 text)
    (hH5 : (dictKeys (redact r text pd nd).2.2.reverse).Nodup) :
    unredact (redact r text pd nd).2.2 (redact r text pd nd).1 = text := by
  have hst : (redact r text pd nd).2.2 = (redactFlags r text pd nd).2 := rfl
  have hmk : (redact r text pd nd).1
      = applyRedactions (redactFlags r text pd nd).1 text := rfl
  rw [hst, hmk] at *
  have hrl : ∀ rd ∈ sortByKeyDesc (fun rd => rd.original.length)
      (redactFlags r text pd nd).1,
      rd.original ≠ [] ∧ bracketFree rd.original
        ∧ (rd.placeholder, rd.original) ∈ (redactFlags r text pd nd).2.reverse
        ∧ ∀ g ∈ (redactFlags r text pd nd).2.reverse,
            ¬ OccursIn rd.original g.1 := by
    intro rd hrd
    have hmemf : rd ∈ (redactFlags r text pd nd).1 :=
      (sortByKeyDesc_perm _ _).mem_iff.mp hrd
    have hcons := redactFlags_consistent r text pd nd hnod rd hmemf
    have hmm : (rd.original, rd.placeholder) ∈ (redactFlags r text pd nd).2.mapping :=
      dictGet_mem _ _ _ hcons
    have h1 := hH1 _ hmm
    refine ⟨h1.1, h1.2, ?_, fun g hg => hH1b _ hmm g hg⟩
    exact dictGet_mem _ _ _ (hH3 rd.original rd.placeholder hcons)
  obtain ⟨h2, l2, f1, f2, f3⟩ := subst_fold (redactFlags r text pd nd).2.reverse
    hH2 (sortByKeyDesc (fun rd => rd.original.length) (redactFlags r text pd nd).1)
    hrl text [] (by intro e he; exact absurd he (List.not_mem_nil _))
  have hmasked : applyRedactions (redactFlags r text pd nd).1 text = mflat h2 l2 := f1
  rw [hmasked]
  show (sortByKeyDesc (fun e => e.1.length) (redactFlags r text pd nd).2.reverse).foldl
      (fun t e => replaceAll e.1 e.2 t) (mflat h2 l2) = text
  apply unredact_fold text _ h2 l2
  · intro g hg
    exact hH2 g ((sortByKeyDesc_perm _ _).mem_iff.mp hg)
  · intro g hg
    exact hH4 g ((sortByKeyDesc_perm _ _).mem_iff.mp hg)
  · intro g hg gg hgg hkey
    have hgm := (sortByKeyDesc_perm _ _).mem_iff.mp hg
    have hggm := (sortByKeyDesc_perm _ _).mem_iff.mp hgg
    have hg2 : (g.1, g.2) ∈ (redactFlags r text pd nd).2.reverse := hgm
    have hgg2 : (g.1, gg.2) ∈ (redactFlags r text pd nd).2.reverse := by
      rw [hkey]
      exact hggm
    exact mem_unique_of_nodup_keys _ hH5 hg2 hgg2
  · intro e he
    exact (sortByKeyDesc_perm _ _).mem_iff.mpr (f3 e he)
  · exact f2

/-- Closed instance of `roundtrip_amended`: a store holding the manual
redaction `1.2.3.4 ↦ [REDACTED_1]` satisfies every hypothesis, and the
round trip on `"ssh 1.2.3.4 ok"` restores the text. -/
theorem roundtrip_amended_witness :
    unredact (redact (addManualRedaction (Redactor.init [] false) (S "1.2.3.4") []).2.2
        (S "ssh 1.2.3.4 ok") (fun _ => []) (fun _ => [])).2.2
      (redact (addManualRedaction (Redactor.init [] false) (S "1.2.3.4") []).2.2
        (S "ssh 1.2.3.4 ok") (fun _ => []) (fun _ => [])).1
      = S "ssh 1.2.3.4 ok" := by
  apply roundtrip_amended
  · decide
  · decide
  · decide
  · intro g hg
    have hrev : (redact (addManualRedaction (Redactor.init [] false) (S "1.2.3.4") []).2.2
        (S "ssh 1.2.3.4 ok") (fun _ => []) (fun _ => [])).2.2.reverse
        = [(S "[REDACTED_1]", S "1.2.3.4")] := by decide
    rw [hrev] at hg
    rw [List.mem_singleton.mp hg]
    exact ⟨S "REDACTED_1", by decide, by decide⟩
  · intro o p h
    have hmap : (redact (addManualRedaction (Redactor.init [] false) (S "1.2.3.4") []).2.2
        (S "ssh 1.2.3.4 ok") (fun _ => []) (fun _ => [])).2.2.mapping
        = [(S "1.2.3.4", S "[REDACTED_1]")] := by decide
    rw [hmap] at h
    obtain ⟨rfl, rfl⟩ := dictGet_singleton _ _ _ _ h
    decide
  · decide
  · decide

/-- The raw (non-placeholder) pieces of a chunk decomposition. -/
def rawPieces (m : Str × List ((Str × Str) × Str)) : List Str :=
  m.1 :: m.2.map (fun e => e.2)

theorem insDesc_head {α : Type} (key : α → Nat) (x : α) (l : List α) :
    (insDesc key x l).head? = some x ∨ (insDesc key x l).head? = l.head? := by
  cases l with
  | nil => exact Or.inl rfl
  | cons y ys =>
    unfold insDesc
    split
    · exact Or.inl rfl
    · exact Or.inr rfl

theorem insDesc_sorted {α : Type} (key : α → Nat) (x : α) (l : List α)
    (hl : List.Chain' (fun a b => key b ≤ key a) l) :
    List.Chain' (fun a b => key b ≤ key a) (insDesc key x l) := by
  induction l with
  | nil => exact List.chain'_singleton x
  | cons y ys ih =>
    unfold insDesc
    split
    · next hyx =>
      exact List.chain'_cons.mpr ⟨hyx, hl⟩
    · next hyx =>
      have hl' := (List.chain'_cons'.mp hl).2
      have hhead := (List.chain'_cons'.mp hl).1
      refine List.chain'_cons'.mpr ⟨?_, ih hl'⟩
      intro b hb
      rcases insDesc_head key x ys with hh | hh
      · rw [hh] at hb
        simp only [Option.mem_def, Option.some.injEq] at hb
        subst hb
        omega
      · rw [hh] at hb
        exact hhead b hb

theorem sortByKeyDesc_sorted {α : Type} (key : α → Nat) (l : List α) :
    List.Chain' (fun a b => key b ≤ key a) (sortByKeyDesc key l) := by
  induction l with
  | nil => exact List.chain'_nil
  | cons x xs ih =>
    exact insDesc_sorted key x (sortByKeyDesc key xs) ih

theorem sortPair (key : Redaction → Nat) (rL rS : Redaction)
    (hlen : key rS < key rL) :
    sortByKeyDesc key [rL, rS] = [rL, rS]
      ∧ sortByKeyDesc key [rS, rL] = [rL, rS] := by
  constructor
  · show insDesc key rL (insDesc key rS []) = [rL, rS]
    show insDesc key rL [rS] = [rL, rS]
    unfold insDesc
    rw [if_pos (le_of_lt hlen)]
  · show insDesc key rS (insDesc key rL []) = [rL, rS]
    show insDesc key rS [rL] = [rL, rS]
    unfold insDesc
    rw [if_neg (not_le.mpr hlen)]
    rfl

/-- C5 counterexample: with user terms `ED ↦ xEy` and `E ↦ z` on the
text `"ED"`, the shorter flagged value `E` occurs in the text only
inside the longer flagged value `ED`, yet the substitution pass
replaces it independently inside the longer value's placeholder: the
masked text is `"xzy"`, not the longer-only replacement `"xEy"`, and
the shorter value's placeholder `z` appears. -/
theorem fragmentation_counterexample :
    (redact (Redactor.init [(S "ED", S "xEy"), (S "E", S "z")] false) (S "ED")
        (fun _ => []) (fun _ => [])).1
      ≠ replaceAll (S "ED") (S "xEy") (S "ED")
    ∧ OccursIn (S "z")
        (redact (Redactor.init [(S "ED", S "xEy"), (S "E", S "z")] false) (S "ED")
          (fun _ => []) (fun _ => [])).1 := by
  decide

/-- C5 (amended): the substitution pass sorts by non-increasing
original length; and for a pass over exactly two flagged values (in
either order) whose originals are non-empty with the shorter one
strictly shorter, the shorter value is never independently replaced —
the pass produces exactly the longer-only replacement — provided the
shorter original is bracket-free, the longer value's placeholder is
bracket-shaped, the shorter original does not occur in that
placeholder, and every occurrence of the shorter original in the text
lies inside a replaced occurrence of the longer value (it occurs in no
leftover raw piece of the longer substitution).  The bracket shape of
the placeholder rules out matches across the junctions the
substitution creates. -/
theorem no_fragmentation_amended :
    (∀ reds : List Redaction,
      List.Chain' (fun a b => b.original.length ≤ a.original.length)
        (sortByKeyDesc (fun rd => rd.original.length) reds))
    ∧ (∀ (rl : List Redaction) (rL rS : Redaction) (text : Str),
        (rl = [rL, rS] ∨ rl = [rS, rL]) →
        rS.original.length < rL.original.length →
        rL.original ≠ [] →
        rS.original ≠ [] →
        bracketFree rS.original →
        BracketShaped rL.placeholder →
        ¬ OccursIn rS.original rL.placeholder →
        (∀ s ∈ rawPieces (splitChunks rL.original rL.placeholder text),
          ¬ OccursIn rS.original s) →
        applyRedactions rl text
          = replaceAll rL.original rL.placeholder text) := by
  refine ⟨fun reds => sortByKeyDesc_sorted _ reds, ?_⟩
  intro rl rL rS text hrl hlen hoL hoS hfree hshape hnotpl hpieces
  have hsort : sortByKeyDesc (fun rd => rd.original.length) rl = [rL, rS] := by
    rcases hrl with rfl | rfl
    · exact (sortPair _ rL rS hlen).1
    · exact (sortPair _ rL rS hlen).2
  show (sortByKeyDesc (fun rd => rd.original.length) rl).foldl
      (fun t rd => replaceAll rd.original rd.placeholder t) text
    = replaceAll rL.original rL.placeholder text
  rw [hsort]
  show replaceAll rS.original rS.placeholder
      (replaceAll rL.original rL.placeholder text)
    = replaceAll rL.original rL.placeholder text
  rw [← splitChunks_flat rL.original rL.placeholder text hoL]
  apply replaceAll_chunks_id rS.original rS.placeholder hoS hfree
  · intro e he
    have hch := splitChunks_chunks rL.original rL.placeholder text e he
    refine ⟨?_, ?_, ?_⟩
    · rw [hch]
      exact hshape
    · rw [hch]
      exact hnotpl
    · apply hpieces
      exact List.mem_cons_of_mem _ (List.mem_map_of_mem (fun e => e.2) he)
  · exact hpieces _ (List.mem_cons_self _ _)

/-- Closed instance of the no-fragmentation part of
`no_fragmentation_amended`: `2.3` nests inside `1.2.3.4` in the text
`"a 1.2.3.4 b"` and is subsumed by the longer value's placeholder. -/
theorem no_fragmentation_amended_witness :
    applyRedactions
        [⟨S "1.2.3.4", S "[REDACTED_1]", S "manual", false⟩,
         ⟨S "2.3", S "[X_1]", S "manual", false⟩]
        (S "a 1.2.3.4 b")
      = replaceAll (S "1.2.3.4") (S "[REDACTED_1]") (S "a 1.2.3.4 b") := by
  apply no_fragmentation_amended.2 _
    (⟨S "1.2.3.4", S "[REDACTED_1]", S "manual", false⟩ : Redaction)
    (⟨S "2.3", S "[X_1]", S "manual", false⟩ : Redaction)
  · exact Or.inl rfl
  · decide
  · decide
  · decide
  · decide
  · exact ⟨S "REDACTED_1", by decide, by decide⟩
  · decide
  · decide

/-! ### Injectivity of minted placeholders, for the store invariant. -/

theorem char_digit_toNat (n : Nat) (h : n < 10) :
    (Char.ofNat (48 + n)).toNat = 48 + n := by
  interval_cases n <;> decide

theorem natDigs_digits (n : Nat) :
    ∀ c ∈ natDigs n, 48 ≤ c.toNat ∧ c.toNat ≤ 57 := by
  induction n using Nat.strong_induction_on with
  | _ n ih =>
    rw [natDigs_eq]
    by_cases h : n < 10
    · rw [if_pos h]
      intro c hc
      rw [List.mem_singleton] at hc
      subst hc
      rw [char_digit_toNat n h]
      omega
    · rw [if_neg h]
      intro c hc
      rcases List.mem_append.mp hc with h1 | h1
      · exact ih (n / 10) (by omega) c h1
      · rw [List.mem_singleton] at h1
        subst h1
        rw [char_digit_toNat (n % 10) (Nat.mod_lt _ (by omega))]
        omega

/-- Decimal decoding, inverse to `natDigs`. -/
def digsVal (s : Str) : Nat := s.foldl (fun a c => a * 10 + (c.toNat - 48)) 0

theorem digsVal_natDigs (n : Nat) : digsVal (natDigs n) = n := by
  induction n using Nat.strong_induction_on with
  | _ n ih =>
    rw [natDigs_eq]
    by_cases h : n < 10
    · rw [if_pos h]
      show 0 * 10 + ((Char.ofNat (48 + n)).toNat - 48) = n
      rw [char_digit_toNat n h]
      omega
    · rw [if_neg h]
      unfold digsVal
      rw [List.foldl_append]
      show (natDigs (n / 10)).foldl (fun a c => a * 10 + (c.toNat - 48)) 0 * 10
          + ((Char.ofNat (48 + n % 10)).toNat - 48) = n
      have hrec := ih (n / 10) (by omega)
      unfold digsVal at hrec
      rw [hrec, char_digit_toNat (n % 10) (Nat.mod_lt _ (by omega))]
      omega

theorem natDigs_inj {m n : Nat} (h : natDigs m = natDigs n) : m = n := by
  rw [← digsVal_natDigs m, ← digsVal_natDigs n, h]

theorem tag_digits_split (t1 t2 d1 d2 : Str)
    (hd1 : ∀ c ∈ d1, 48 ≤ c.toNat ∧ c.toNat ≤ 57)
    (h : t1 ++ '_' :: d1 = t2 ++ '_' :: d2)
    (hlt : t1.length < t2.length) : False := by
  have hd : (t1 ++ '_' :: d1).drop t2.length = '_' :: d2 := by
    rw [h, List.drop_left]
  rw [show t2.length = t1.length + (t2.length - t1.length) from by omega,
    List.drop_append] at hd
  have hj1 : 1 ≤ t2.length - t1.length := by omega
  rw [show t2.length - t1.length = (t2.length - t1.length - 1) + 1 from by omega,
    List.drop_succ_cons] at hd
  have hm : '_' ∈ d1.drop (t2.length - t1.length - 1) := by
    rw [hd]
    exact List.mem_cons_self _ _
  have hrange := hd1 '_' (List.mem_of_mem_drop hm)
  have h95 : ('_' : Char).toNat = 95 := by decide
  rw [h95] at hrange
  omega

theorem mkPlaceholder_inj {t1 t2 : Str} {k1 k2 : Nat}
    (h : mkPlaceholder t1 k1 = mkPlaceholder t2 k2) : t1 = t2 ∧ k1 = k2 := by
  unfold mkPlaceholder at h
  injection h with hhead h
  have h2 : (t1 ++ '_' :: natDigs k1) ++ [']'] = (t2 ++ '_' :: natDigs k2) ++ [']'] := h
  have h3 : t1 ++ '_' :: natDigs k1 = t2 ++ '_' :: natDigs k2 :=
    (List.append_inj' h2 rfl).1
  rcases Nat.lt_trichotomy t1.length t2.length with hlt | heq | hgt
  · exact absurd h3 (fun hh =>
      tag_digits_split t1 t2 (natDigs k1) (natDigs k2) (natDigs_digits k1) hh hlt)
  · obtain ⟨ht, hrest⟩ := List.append_inj h3 heq
    injection hrest with _ hd
    exact ⟨ht, natDigs_inj hd⟩
  · exact absurd h3.symm (fun hh =>
      tag_digits_split t2 t1 (natDigs k2) (natDigs k1) (natDigs_digits k2) hh hgt)

theorem dictGet_map_update_self {α : Type} (d : List (Str × α)) (k : Str) (v : α)
    (h : dictGet d k ≠ none) :
    dictGet (d.map (fun e => if e.1 == k then (k, v) else e)) k = some v := by
  induction d with
  | nil => exact absurd rfl h
  | cons e t ih =>
    cases hek : (e.1 == k) with
    | true =>
      unfold dictGet
      simp only [List.map_cons, if_pos hek]
      have hkk : ((k, v).1 == k) = true := by simp
      rw [List.find?]
      rw [hkk]
      rfl
    | false =>
      have hold : dictGet (e :: t) k = dictGet t k := by
        unfold dictGet
        rw [List.find?, hek]
      rw [hold] at h
      unfold dictGet
      simp only [List.map_cons, if_neg (by simp [hek] : ¬ (e.1 == k) = true)]
      rw [List.find?, hek]
      exact ih h

theorem dictGet_insert_self {α : Type} (d : List (Str × α)) (k : Str) (v : α) :
    dictGet (dictInsert d k v) k = some v := by
  by_cases h : dictGet d k = none
  · rw [dictGet_insert_absent d k v h, if_pos rfl]
  · unfold dictInsert
    rw [if_pos (by
      unfold dictGet at h
      cases hf : d.find? (fun e => e.1 == k) with
      | none => rw [hf] at h; simp at h
      | some e => simp [hf])]
    exact dictGet_map_update_self d k v h

theorem dictGet_insert_other {α : Type} (d : List (Str × α)) (k' k : Str) (v : α)
    (hk : k ≠ k') : dictGet (dictInsert d k' v) k = dictGet d k := by
  by_cases h : dictGet d k' = none
  · rw [dictGet_insert_absent d k' v h, if_neg hk]
  · exact dictGet_insert_present d k' v h k hk

theorem nodup_insert_absent {α : Type} (d : List (Str × α)) (k : Str) (v : α)
    (h : dictGet d k = none) (hn : (dictKeys d).Nodup) :
    (dictKeys (dictInsert d k v)).Nodup := by
  rw [dictKeys_insert_absent d k v h]
  exact List.Nodup.append hn (List.nodup_singleton k)
    (List.disjoint_singleton.mpr ((dictGet_none_iff _ _).mp h))

/-- The Mapping Store invariant of the amended C6 claim: both tables
have unique keys, the reverse table is the exact inverse of the forward
table, every counter value is at least 1, and every reverse key is
either a minted placeholder bounded by its tag's counter or a
configured user-term placeholder of non-minted shape. -/
def StoreInv (r : Redactor) : Prop :=
  (dictKeys r.mapping).Nodup
  ∧ (dictKeys r.reverse).Nodup
  ∧ (∀ o p, dictGet r.mapping o = some p ↔ dictGet r.reverse p = some o)
  ∧ (∀ tag n, dictGet r.counters tag = some n → 1 ≤ n)
  ∧ (∀ p o, dictGet r.reverse p = some o →
      (∃ tag k n, p = mkPlaceholder tag k ∧ dictGet r.counters tag = some n
        ∧ 1 ≤ k ∧ k ≤ n)
      ∨ ((o, p) ∈ r.userTerms ∧ ∀ tag k, p ≠ mkPlaceholder tag k))

/-- Healthy user-term configuration: placeholders are pairwise distinct
across entries and never of the minted `[TAG_n]` shape. -/
def GoodTerms (u : List (Str × Str)) : Prop :=
  (∀ e ∈ u, ∀ e2 ∈ u, e.2 = e2.2 → e = e2)
  ∧ ∀ e ∈ u, ∀ tag k, e.2 ≠ mkPlaceholder tag k

theorem inverse_insert (mp rv : List (Str × Str)) (v pl : Str)
    (hiff : ∀ o p, dictGet mp o = some p ↔ dictGet rv p = some o)
    (hmapv : dictGet mp v = none) (hrevpl : dictGet rv pl = none) :
    ∀ o p, dictGet (dictInsert mp v pl) o = some p
      ↔ dictGet (dictInsert rv pl v) p = some o := by
  intro o p
  rw [dictGet_insert_absent mp v pl hmapv, dictGet_insert_absent rv pl v hrevpl]
  by_cases ho : o = v
  · rw [ho, if_pos rfl]
    by_cases hp : p = pl
    · rw [hp, if_pos rfl]
      simp
    · rw [if_neg hp]
      constructor
      · intro h
        injection h with h
        exact absurd h.symm hp
      · intro h
        have hh := (hiff v p).mpr h
        rw [hmapv] at hh
        exact Option.noConfusion hh
  · rw [if_neg ho]
    by_cases hp : p = pl
    · rw [hp, if_pos rfl]
      constructor
      · intro h
        have hh := (hiff o pl).mp h
        rw [hrevpl] at hh
        exact Option.noConfusion hh
      · intro h
        injection h with h
        exact absurd h.symm ho
    · rw [if_neg hp]
      exact hiff o p

theorem getOrCreate_storeInv (r : Redactor) (v c : Str) (hinv : StoreInv r) :
    StoreInv (getOrCreatePlaceholder r v c).2
    ∧ (getOrCreatePlaceholder r v c).2.userTerms = r.userTerms
    ∧ ∀ tg, (dictGet r.counters tg).getD 0
        ≤ (dictGet (getOrCreatePlaceholder r v c).2.counters tg).getD 0 := by
  obtain ⟨hnm, hnr, hiff, hcnt, hclass⟩ := hinv
  unfold getOrCreatePlaceholder
  cases hv : dictGet r.mapping v with
  | some q => exact ⟨⟨hnm, hnr, hiff, hcnt, hclass⟩, rfl, fun tg => le_refl _⟩
  | none =>
    dsimp only
    set tag := (dictGet categoryTags c).getD (upperS c) with htag
    set n := (dictGet r.counters tag).getD 0 with hn
    set p := mkPlaceholder tag (n + 1) with hp
    have hfresh : dictGet r.reverse p = none := by
      cases hrv : dictGet r.reverse p with
      | none => rfl
      | some o =>
        exfalso
        rcases hclass p o hrv with ⟨tag2, k, n2, hpe, hc2, hk1, hkn⟩ | ⟨-, hnm2⟩
        · rw [hp] at hpe
          obtain ⟨hteq, hkeq⟩ := mkPlaceholder_inj hpe
          rw [← hteq] at hc2
          have hn2 : n = n2 := by rw [hn, hc2]; rfl
          omega
        · exact hnm2 tag (n + 1) hp
    refine ⟨⟨?_, ?_, ?_, ?_, ?_⟩, rfl, ?_⟩
    · exact nodup_insert_absent _ _ _ hv hnm
    · exact nodup_insert_absent _ _ _ hfresh hnr
    · exact inverse_insert _ _ v p hiff hv hfresh
    · intro tg m hm
      by_cases htg : tg = tag
      · rw [htg, dictGet_insert_self] at hm
        injection hm with hm
        omega
      · rw [dictGet_insert_other _ _ _ _ htg] at hm
        exact hcnt tg m hm
    · intro p2 o2 h2
      by_cases hp2 : p2 = p
      · rw [hp2, dictGet_insert_self] at h2
        injection h2 with h2
        left
        exact ⟨tag, n + 1, n + 1, by rw [hp2, hp], dictGet_insert_self _ _ _,
          by omega, le_refl _⟩
      · rw [dictGet_insert_other _ _ _ _ hp2] at h2
        rcases hclass p2 o2 h2 with ⟨tg2, k2, m2, hpe2, hc2, hk1, hkn⟩ | hright
        · left
          by_cases htg2 : tg2 = tag
          · refine ⟨tag, k2, n + 1, by rw [hpe2, htg2], dictGet_insert_self _ _ _,
              hk1, ?_⟩
            rw [htg2] at hc2
            have hm2 : n = m2 := by rw [hn, hc2]; rfl
            omega
          · refine ⟨tg2, k2, m2, hpe2, ?_, hk1, hkn⟩
            rw [dictGet_insert_other _ _ _ _ htg2]
            exact hc2
        · right
          exact hright
    · intro tg
      by_cases htg : tg = tag
      · rw [htg, dictGet_insert_self, ← hn]
        show n ≤ n + 1
        omega
      · rw [dictGet_insert_other _ _ _ _ htg]

theorem insertPair_storeInv (r : Redactor) (v pl : Str) (hinv : StoreInv r)
    (hgt : GoodTerms r.userTerms)
    (hmem : (v, pl) ∈ r.userTerms)
    (hmapv : dictGet r.mapping v = none) :
    StoreInv { r with mapping := dictInsert r.mapping v pl,
                      reverse := dictInsert r.reverse pl v } := by
  obtain ⟨hnm, hnr, hiff, hcnt, hclass⟩ := hinv
  have hnotmint : ∀ tag k, pl ≠ mkPlaceholder tag k :=
    fun tag k => hgt.2 (v, pl) hmem tag k
  have hfresh : dictGet r.reverse pl = none := by
    cases hrv : dictGet r.reverse pl with
    | none => rfl
    | some o =>
      exfalso
      rcases hclass pl o hrv with ⟨tag2, k, n2, hpe, -, -, -⟩ | ⟨hmem2, -⟩
      · exact hnotmint tag2 k hpe
      · have heq := hgt.1 (o, pl) hmem2 (v, pl) hmem rfl
        have hov : o = v := (Prod.ext_iff.mp heq).1
        rw [hov] at hrv
        have hh := (hiff v pl).mpr hrv
        rw [hmapv] at hh
        exact Option.noConfusion hh
  refine ⟨nodup_insert_absent _ _ _ hmapv hnm, nodup_insert_absent _ _ _ hfresh hnr,
    inverse_insert _ _ v pl hiff hmapv hfresh, hcnt, ?_⟩
  intro p2 o2 h2
  by_cases hp2 : p2 = pl
  · rw [hp2, dictGet_insert_self] at h2
    injection h2 with h2
    right
    refine ⟨?_, by rw [hp2]; exact hnotmint⟩
    rw [← h2, hp2]
    exact hmem
  · rw [dictGet_insert_other _ _ _ _ hp2] at h2
    exact hclass p2 o2 h2

theorem phase1_storeInv (text : Str) :
    ∀ (terms : List (Str × Str)) (r : Redactor),
      StoreInv r → GoodTerms r.userTerms → (∀ e ∈ terms, e ∈ r.userTerms) →
      StoreInv (phase1 text r terms).2
      ∧ (phase1 text r terms).2.userTerms = r.userTerms
      ∧ (phase1 text r terms).2.counters = r.counters := by
  intro terms
  induction terms with
  | nil =>
    intro r hinv _ _
    exact ⟨hinv, rfl, rfl⟩
  | cons e rest ih =>
    obtain ⟨term, pl⟩ := e
    intro r hinv hgt hsub
    unfold phase1
    split
    · next hc =>
      have hinv' := insertPair_storeInv r term pl hinv hgt
        (hsub (term, pl) (List.mem_cons_self _ _)) hc.2
      have hres := ih _ hinv' hgt
        (fun e he => hsub e (List.mem_cons_of_mem _ he))
      exact hres
    · exact ih r hinv hgt (fun e he => hsub e (List.mem_cons_of_mem _ he))

theorem phase2_storeInv :
    ∀ (dets : List (Str × Str)) (r : Redactor),
      StoreInv r →
      StoreInv (phase2 r dets).2
      ∧ (phase2 r dets).2.userTerms = r.userTerms
      ∧ ∀ tg, (dictGet r.counters tg).getD 0
          ≤ (dictGet (phase2 r dets).2.counters tg).getD 0 := by
  intro dets
  induction dets with
  | nil =>
    intro r hinv
    exact ⟨hinv, rfl, fun tg => le_refl _⟩
  | cons e rest ih =>
    obtain ⟨value, category⟩ := e
    intro r hinv
    unfold phase2
    split
    · exact ih r hinv
    · split
      · exact ih r hinv
      · have hg := getOrCreate_storeInv r value category hinv
        have hres := ih _ hg.1
        exact ⟨hres.1, hres.2.1.trans hg.2.1,
          fun tg => le_trans (hg.2.2 tg) (hres.2.2 tg)⟩

theorem detectHE_storeInv (already : List Str) :
    ∀ (toks : List Str) (r : Redactor),
      StoreInv r →
      StoreInv (detectHighEntropyTokens r already toks).2
      ∧ (detectHighEntropyTokens r already toks).2.userTerms = r.userTerms
      ∧ ∀ tg, (dictGet r.counters tg).getD 0
          ≤ (dictGet (detectHighEntropyTokens r already toks).2.counters tg).getD 0 := by
  intro toks
  induction toks with
  | nil =>
    intro r hinv
    exact ⟨hinv, rfl, fun tg => le_refl _⟩
  | cons tok rest ih =>
    intro r hinv
    unfold detectHighEntropyTokens
    split
    · exact ih r hinv
    · split
      · exact ih r hinv
      · split
        · exact ih r hinv
        · split
          · exact ih r hinv
          · split
            · have hg := getOrCreate_storeInv r tok (S "high_entropy") hinv
              have hres := ih _ hg.1
              exact ⟨hres.1, hres.2.1.trans hg.2.1,
                fun tg => le_trans (hg.2.2 tg) (hres.2.2 tg)⟩
            · exact ih r hinv

theorem phase4_storeInv :
    ∀ (dets : List (Str × Str)) (already : List Str) (r : Redactor),
      StoreInv r →
      StoreInv (phase4 r already dets).2
      ∧ (phase4 r already dets).2.userTerms = r.userTerms
      ∧ ∀ tg, (dictGet r.counters tg).getD 0
          ≤ (dictGet (phase4 r already dets).2.counters tg).getD 0 := by
  intro dets
  induction dets with
  | nil =>
    intro already r hinv
    exact ⟨hinv, rfl, fun tg => le_refl _⟩
  | cons e rest ih =>
    obtain ⟨value, category⟩ := e
    intro already r hinv
    unfold phase4
    split
    · exact ih already r hinv
    · split
      · exact ih already r hinv
      · have hg := getOrCreate_storeInv r value category hinv
        have hres := ih (already ++ [value]) _ hg.1
        exact ⟨hres.1, hres.2.1.trans hg.2.1,
          fun tg => le_trans (hg.2.2 tg) (hres.2.2 tg)⟩

theorem redactFlags_storeInv (r : Redactor) (text : Str)
    (pd nd : Str → List (Str × Str)) (hinv : StoreInv r)
    (hgt : GoodTerms r.userTerms) :
    StoreInv (redactFlags r text pd nd).2
    ∧ (redactFlags r text pd nd).2.userTerms = r.userTerms
    ∧ ∀ tg, (dictGet r.counters tg).getD 0
        ≤ (dictGet (redactFlags r text pd nd).2.counters tg).getD 0 := by
  unfold redactFlags
  dsimp only
  have hp1 := phase1_storeInv text r.userTerms r hinv hgt (fun e he => he)
  have hgt1 : GoodTerms (phase1 text r r.userTerms).2.userTerms := by
    rw [hp1.2.1]
    exact hgt
  have hp2 := phase2_storeInv (pd text) _ hp1.1
  have hp3 := detectHE_storeInv
    (List.map (fun x => x.original)
      (phase0 r text ++ (phase1 text r r.userTerms).1
        ++ (phase2 (phase1 text r r.userTerms).2 (pd text)).1))
    (tokenize text) _ hp2.1
  by_cases hne : r.nerEnabled = true
  · rw [if_pos hne]
    have hp4 := phase4_storeInv (nd text)
      (List.map (fun x => x.original)
        (phase0 r text ++ (phase1 text r r.userTerms).1
            ++ (phase2 (phase1 text r r.userTerms).2 (pd text)).1
          ++ (detectHighEntropyTokens (phase2 (phase1 text r r.userTerms).2 (pd text)).2
              (List.map (fun x => x.original)
                (phase0 r text ++ (phase1 text r r.userTerms).1
                  ++ (phase2 (phase1 text r r.userTerms).2 (pd text)).1))
              (tokenize text)).1))
      _ hp3.1
    refine ⟨hp4.1, ?_, ?_⟩
    · rw [hp4.2.1, hp3.2.1, hp2.2.1, hp1.2.1]
    · intro tg
      have h1 : (dictGet r.counters tg).getD 0
          = (dictGet (phase1 text r r.userTerms).2.counters tg).getD 0 := by
        rw [hp1.2.2]
      rw [h1]
      exact le_trans (hp2.2.2 tg) (le_trans (hp3.2.2 tg) (hp4.2.2 tg))
  · rw [if_neg hne]
    refine ⟨hp3.1, ?_, ?_⟩
    · rw [hp3.2.1, hp2.2.1, hp1.2.1]
    · intro tg
      have h1 : (dictGet r.counters tg).getD 0
          = (dictGet (phase1 text r r.userTerms).2.counters tg).getD 0 := by
        rw [hp1.2.2]
      rw [h1]
      exact le_trans (hp2.2.2 tg) (hp3.2.2 tg)

/-- C6 (amended): Mapping Store bijectivity invariant, for user-term
configurations whose placeholders are pairwise distinct and never of
the minted `[TAG_n]` shape.  The invariant `StoreInv` — unique keys in
both tables, the reverse table the exact inverse of the forward table,
every counter at least 1, every reverse key a counter-bounded minted
placeholder or a configured user placeholder — holds after
construction and is preserved by `redact` and `add_manual_redaction`
(`remove_redaction` does not touch the store), with counters never
decreasing; it implies the forward table is injective with
`reverse(forward(o)) = o` for every stored original. -/
theorem bijectivity_amended :
    (∀ (u : List (Str × Str)) (ner : Bool), StoreInv (Redactor.init u ner))
    ∧ (∀ (r : Redactor) (text : Str) (pd nd : Str → List (Str × Str)),
        StoreInv r → GoodTerms r.userTerms →
        StoreInv (redact r text pd nd).2.2
        ∧ (redact r text pd nd).2.2.userTerms = r.userTerms
        ∧ ∀ tg, (dictGet r.counters tg).getD 0
            ≤ (dictGet (redact r text pd nd).2.2.counters tg).getD 0)
    ∧ (∀ (r : Redactor) (orig text : Str),
        StoreInv r →
        StoreInv (addManualRedaction r orig text).2.2
        ∧ (addManualRedaction r orig text).2.2.userTerms = r.userTerms
        ∧ ∀ tg, (dictGet r.counters tg).getD 0
            ≤ (dictGet (addManualRedaction r orig text).2.2.counters tg).getD 0)
    ∧ (∀ r : Redactor, StoreInv r →
        (∀ o1 o2 p, dictGet r.mapping o1 = some p →
          dictGet r.mapping o2 = some p → o1 = o2)
        ∧ ∀ o p, dictGet r.mapping o = some p → dictGet r.reverse p = some o) := by
  refine ⟨?_, ?_, ?_, ?_⟩
  · intro u ner
    refine ⟨List.nodup_nil, List.nodup_nil, ?_, ?_, ?_⟩
    · intro o p
      constructor
      · intro h
        exact Option.noConfusion h
      · intro h
        exact Option.noConfusion h
    · intro tag n h
      exact Option.noConfusion h
    · intro p o h
      exact Option.noConfusion h
  · intro r text pd nd hinv hgt
    exact redactFlags_storeInv r text pd nd hinv hgt
  · intro r orig text hinv
    exact getOrCreate_storeInv r orig (S "manual") hinv
  · intro r hinv
    constructor
    · intro o1 o2 p h1 h2
      have hr1 := (hinv.2.2.1 o1 p).mp h1
      have hr2 := (hinv.2.2.1 o2 p).mp h2
      rw [hr1] at hr2
      exact Option.some_injective _ hr2
    · intro o p h
      exact (hinv.2.2.1 o p).mp h

/-- Closed instance of `bijectivity_amended`: with the healthy user
term `srv ↦ <SRV>`, the store after a `redact` call satisfies the
invariant. -/
theorem bijectivity_amended_witness :
    StoreInv (redact (Redactor.init [(S "srv", S "<SRV>")] false) (S "srv up")
        (fun _ => []) (fun _ => [])).2.2 := by
  refine (bijectivity_amended.2.1 (Redactor.init [(S "srv", S "<SRV>")] false)
    (S "srv up") (fun _ => []) (fun _ => []) ?_ ?_).1
  · exact bijectivity_amended.1 [(S "srv", S "<SRV>")] false
  · constructor
    · decide
    · intro e he tag k h
      have he2 : e = (S "srv", S "<SRV>") := List.mem_singleton.mp he
      rw [he2] at h
      have hh := congrArg List.head? h
      rw [show (mkPlaceholder tag k).head? = some '[' from rfl] at hh
      exact absurd hh (by decide)

end CliAI
